import Mathlib

/-!
# cmtxgo: fixed-width "cemtext" rendering

A shallow embedding of `generate.go` (package `cmtxgo`) and the properties of
its field rendering engine.

Conventions of the embedding.

* A Go `string` is a sequence of bytes and `len` counts bytes: `GoString` is
  `List UInt8`.
* Go `int` values (`Order`, `Length`, `MaxLengthPerSection`) are `Int`. The only
  arithmetic the code performs on them is the loop counter `i++` below `length`,
  which cannot overflow.
* A run-time panic (slice bounds out of range, index out of range) is the
  result `none`; a normal return is `some`.
* `*Field` and `*Option` may be `nil`: they are `Option Field` and
  `Option CmtxOption`.
* A `Field` (a Go map of `*Attribute`) is the list of its `(name, descriptor)`
  entries in the order in which `range` happens to enumerate them. Every name
  owns its descriptor: no two names share one `*Attribute`, and no entry holds a
  `nil` descriptor.
* `Generate` starts three goroutines. `Generate` is the result for field sets
  that are distinct objects; `GenerateScheduled` keeps the three `*Field`
  pointers as addresses into a heap and runs the goroutines in the order of a
  schedule, so that pointers naming one object and the order of execution can be
  told apart.
-/

namespace Cmtxgo

/-! ## Strings -/

/-- A Go string: a sequence of bytes. -/
abbrev GoString := List UInt8

/-- The bytes of an ASCII literal. -/
def ascii (s : String) : GoString :=
  s.toList.map (fun c => UInt8.ofNat c.toNat)

/-- Go `len(s)`. -/
def len (s : GoString) : Int := (s.length : Int)

/-- The slice expression `val[:length]` of a string: it panics unless
`0 <= length <= len(val)`, and otherwise yields the first `length` bytes. -/
def slicePrefix (val : GoString) (length : Int) : Option GoString :=
  if 0 ≤ length ∧ length ≤ len val then some (val.take length.toNat) else none

/-- The function `strings.Index(s, sep)`: the position of the first occurrence of
`sep` in `s`, `none` standing for `-1`. -/
def stringsIndex (s sep : GoString) : Option Nat :=
  if sep.isPrefixOf s then some 0
  else
    match s with
    | [] => none
    | _ :: rest =>
      match stringsIndex rest sep with
      | none => none
      | some i => some (i + 1)

/-- The replacement loop of `strings.Replace(s, old, new, -1)` for a non-empty
`old`: find the next occurrence, copy what precedes it, write `new`, continue
behind the occurrence. The first argument bounds the number of rounds. -/
def replaceRounds (old new : GoString) : Nat → GoString → GoString
  | 0, s => s
  | fuel + 1, s =>
    match stringsIndex s old with
    | none => s
    | some j => s.take j ++ new ++ replaceRounds old new fuel (s.drop (j + old.length))

/-- The function `strings.ReplaceAll(s, old, new)` for a non-empty `old`, which
is how this package calls it (both call sites in `generateValue` are guarded by
`old != ""`). Every round consumes at least one byte of `s`, so `len(s)` rounds
are enough (`replaceRounds_fuel`). For an empty `old` the model returns `s`:
that is what Go returns when `new` is empty too, and an empty `old` with a
non-empty `new` is outside the model. -/
def stringsReplaceAll (s old new : GoString) : GoString :=
  if old = [] then s else replaceRounds old new s.length s

/-- The splitting loop of `strings.Split(s, sep)` for a non-empty `sep`. -/
def splitRounds (sep : GoString) : Nat → GoString → List GoString
  | 0, s => [s]
  | fuel + 1, s =>
    match stringsIndex s sep with
    | none => [s]
    | some m => s.take m :: splitRounds sep fuel (s.drop (m + sep.length))

/-- The function `strings.Split(s, sep)` for a non-empty `sep`: the pieces of `s`
between the successive non-overlapping occurrences of `sep`. Every round
consumes at least one byte of `s`, so `len(s)` rounds are enough
(`splitRounds_fuel`). -/
def stringsSplit (s sep : GoString) : List GoString :=
  splitRounds sep s.length s

/-- Decimal digits of a natural number, most significant first. The first
argument bounds the number of digits. -/
def decimalRounds : Nat → Nat → GoString
  | 0, _ => []
  | fuel + 1, n =>
    if n < 10 then [UInt8.ofNat (48 + n)]
    else decimalRounds fuel (n / 10) ++ [UInt8.ofNat (48 + n % 10)]

/-- The text `fmt.Sprintf("%v", i)` of an `int`: decimal digits, with a leading
`-` for a negative number. -/
def formatInt (i : Int) : GoString :=
  if i < 0 then 45 :: decimalRounds (i.natAbs + 1) i.natAbs
  else decimalRounds (i.natAbs + 1) i.natAbs

/-- Go string comparison `a < b`: bytewise lexicographic. -/
def strLess : GoString → GoString → Bool
  | [], [] => false
  | [], _ :: _ => true
  | _ :: _, [] => false
  | a :: s, b :: t => decide (a.toNat < b.toNat) || (decide (a = b) && strLess s t)

/-- Go string comparison `a <= b`. -/
def strLe (a b : GoString) : Prop := strLess b a = false

instance strLeDecidable : DecidableRel strLe :=
  fun a b => inferInstanceAs (Decidable (strLess b a = false))

/-- The function `sort.Strings`: the slice rearranged in increasing order. -/
def sortStrings (x : List GoString) : List GoString :=
  List.insertionSort strLe x

/-! ## Data model -/

/-- The struct `Attribute`. The field `Type` of the source is `Type_` here. -/
structure Attribute where
  Order : Int
  Type_ : GoString
  Length : Int
  Value : GoString
  DefaultValue : GoString
  RemoveAllChars : GoString
  ReplaceAllChars : GoString × GoString
  deriving DecidableEq

/-- The struct `Option` of the source. -/
structure CmtxOption where
  MaxLengthPerSection : Int
  AddCharPerSection : GoString
  deriving DecidableEq

/-- The type `Field`, `map[string]*Attribute`, as the list of its entries. -/
abbrev Field := List (GoString × Attribute)

/-- The package variable `orderSep`. -/
def orderSep : GoString := ascii " __{{[[((0RD3R_53P))]]}}__ "

/-! ## Padding -/

/-- The loop `for i := len(val); i < length; i++ { val = step(val) }` shared by
`leftPad` and `rightPad`. The counter starts at the length of the incoming
`val` and does not depend on its growth, so the body runs `length - len(val)`
times when that is positive and not at all otherwise. -/
def padLoop (step : GoString → GoString) : Nat → GoString → GoString
  | 0, val => val
  | n + 1, val => padLoop step n (step val)

/-- The function `leftPad`. -/
def leftPad (val pad : GoString) (length : Int) : Option GoString :=
  slicePrefix (padLoop (fun v => pad ++ v) (length - len val).toNat val) length

/-- The function `rightPad`. -/
def rightPad (val pad : GoString) (length : Int) : Option GoString :=
  slicePrefix (padLoop (fun v => v ++ pad) (length - len val).toNat val) length

/-- The function `addCharAtTrail`. -/
def addCharAtTrail (val char : GoString) : GoString := val ++ char

/-- The function `replaceAllChars`. -/
def replaceAllChars (val old new : GoString) : GoString :=
  stringsReplaceAll val old new

/-- The function `removeAllChars`. -/
def removeAllChars (val char : GoString) : GoString :=
  stringsReplaceAll val char []

/-- The function `formatValue`. -/
def formatValue (val : GoString) (attr : Attribute) : Option GoString :=
  if attr.Type_ = ascii "lps" then leftPad val (ascii " ") attr.Length
  else if attr.Type_ = ascii "lpz" then leftPad val (ascii "0") attr.Length
  else if attr.Type_ = ascii "rpz" then rightPad val (ascii "0") attr.Length
  else rightPad val (ascii " ") attr.Length

/-- The function `formatMaxLength`. -/
def formatMaxLength (val : GoString) (maxLength : Int) : Option GoString :=
  if maxLength ≠ 0 then rightPad val (ascii " ") maxLength else some val

/-- The function `generateValue`. -/
def generateValue (attr : Attribute) : Option GoString :=
  let val := attr.DefaultValue
  let val := if attr.Value ≠ [] then attr.Value else val
  let val := if attr.RemoveAllChars ≠ [] then removeAllChars val attr.RemoveAllChars else val
  let val :=
    if attr.ReplaceAllChars.1 ≠ [] ∧ attr.ReplaceAllChars.2 ≠ [] then
      replaceAllChars val attr.ReplaceAllChars.1 attr.ReplaceAllChars.2
    else val
  formatValue val attr

/-! ## Section assembly -/

/-- The sort key built in `generateCommon` for one map entry,
`fmt.Sprintf("%v%s%s%s", attr.Order, key, orderSep, generateValue(attr))`. -/
def sortKey (key : GoString) (attr : Attribute) : Option GoString :=
  match generateValue attr with
  | none => none
  | some v => some (formatInt attr.Order ++ key ++ orderSep ++ v)

/-- The first loop of `generateCommon`: the sort keys of the entries, appended
in enumeration order. -/
def collectOrders : Field → Option (List GoString)
  | [] => some []
  | (key, attr) :: rest =>
    match sortKey key attr with
    | none => none
    | some k =>
      match collectOrders rest with
      | none => none
      | some ks => some (k :: ks)

/-- The second loop of `generateCommon`:
`str = str + strings.Split(s, orderSep)[1]` for every sorted key `s`. -/
def joinOrders : GoString → List GoString → Option GoString
  | str, [] => some str
  | str, s :: rest =>
    match (stringsSplit s orderSep)[1]? with
    | none => none
    | some piece => joinOrders (str ++ piece) rest

/-- The function `generateCommon`. -/
def generateCommon (field : Option Field) : Option GoString :=
  match field with
  | none => some []
  | some entries =>
    match collectOrders entries with
    | none => none
    | some orders => joinOrders [] (sortStrings orders)

/-- The function `generateHeader`. -/
def generateHeader (field : Option Field) (option : Option CmtxOption) : Option GoString :=
  match generateCommon field with
  | none => none
  | some str =>
    match option with
    | none => some str
    | some o =>
      if str ≠ [] then
        match formatMaxLength str o.MaxLengthPerSection with
        | none => none
        | some str =>
          if o.AddCharPerSection ≠ [] then some (addCharAtTrail str o.AddCharPerSection)
          else some str
      else some str

/-- The function `generateFooter`. -/
def generateFooter (field : Option Field) (option : Option CmtxOption) : Option GoString :=
  generateHeader field option

/-! ## Detail rows -/

/-- A value stored in a detail row (`interface{}`): the `nil` interface, a
`string`, an `int`, or a value of any other dynamic type (`float64`, `bool`, a
typed nil pointer, ...). The code does nothing with such a value but compare it
with `""` and `nil`, which it differs from, and print it with `%v`; it is given
by the text that `%v` prints for it (`float64Text` for a whole `float64`). -/
inductive RowValue where
  | nil
  | str (s : GoString)
  | int (i : Int)
  | other (text : GoString)
  deriving DecidableEq

/-- A detail row, `map[string]interface{}`, as the list of its entries. -/
abbrev Row := List (GoString × RowValue)

/-- The map index expression `v[n]`: the stored value, or the `nil` interface
when the row has no entry for `n`. -/
def rowGet : Row → GoString → RowValue
  | [], _ => RowValue.nil
  | (k, x) :: rest, n => if k = n then x else rowGet rest n

/-- The digits of a decimal text without its trailing zeros. -/
def stripTrailingZeros (digits : GoString) : GoString :=
  (digits.reverse.dropWhile (fun d => d == 48)).reverse

/-- The exponent of the `%e` form: a sign and at least two digits. -/
def exponentText (exp : Nat) : GoString :=
  if exp < 10 then [101, 43, 48] ++ decimalRounds (exp + 1) exp
  else [101, 43] ++ decimalRounds (exp + 1) exp

/-- The text `fmt.Sprintf("%v", x)` of a `float64` `x` that holds the whole
number `n`, for `|n| < 2^53` (every such number is a `float64`). `%v` prints a
`float64` as `%g` with the shortest digits that give the value back, which for
a whole number are its decimal digits without trailing zeros; with the decimal
exponent `exp` (the number of digits less one) the text is the plain decimal
text when `exp < 6`, and otherwise the `%e` form: first digit, a point and the
remaining digits if there are any, `e+` and the exponent. -/
def float64Text (n : Int) : GoString :=
  let digits := decimalRounds (n.natAbs + 1) n.natAbs
  let sign : GoString := if n < 0 then [45] else []
  if digits.length ≤ 6 then sign ++ digits
  else
    match stripTrailingZeros digits with
    | [] => sign ++ digits
    | d :: more =>
      sign ++ (d :: (if more = [] then [] else 46 :: more))
        ++ exponentText (digits.length - 1)

/-- The text `fmt.Sprintf("%v", x)` of a row value. -/
def sprintV : RowValue → GoString
  | RowValue.nil => ascii "<nil>"
  | RowValue.str s => s
  | RowValue.int i => formatInt i
  | RowValue.other text => text

/-- The inner loop of `generateDetail` for one entry of the template:
`dataField[n].Value = ""`, then the value of the row when `v[n] != ""` and
`v[n] != nil`. -/
def bindValue (v : Row) (n : GoString) (attr : Attribute) : Attribute :=
  let attr := { attr with Value := [] }
  if rowGet v n ≠ RowValue.str [] ∧ rowGet v n ≠ RowValue.nil then
    { attr with Value := sprintV (rowGet v n) }
  else attr

/-- The inner loop of `generateDetail`, `for n, _ := range dataField`: every
descriptor of the template is re-bound from the row `v`. -/
def bindRow (v : Row) (dataField : Field) : Field :=
  dataField.map (fun e => (e.1, bindValue v e.1 e.2))

/-- The outer loop of `generateDetail`, `for _, v := range *detailData`, with
the template it mutates as explicit state: the result is the accumulated string
and the template as the loop leaves it. -/
def detailLoop (option : Option CmtxOption) : Field → GoString → List Row →
    Option (GoString × Field)
  | field, str, [] => some (str, field)
  | field, str, v :: rest =>
    let field := bindRow v field
    match generateCommon (some field) with
    | none => none
    | some cStr =>
      match option with
      | none => detailLoop option field (str ++ cStr) rest
      | some o =>
        if cStr ≠ [] then
          match formatMaxLength cStr o.MaxLengthPerSection with
          | none => none
          | some cStr =>
            if o.AddCharPerSection ≠ [] then
              detailLoop option field (str ++ addCharAtTrail cStr o.AddCharPerSection) rest
            else detailLoop option field (str ++ cStr) rest
        else detailLoop option field (str ++ cStr) rest

/-- The function `generateDetail` together with its effect on the template: the
returned string and the template after the call. -/
def generateDetailState (field : Option Field) (detailData : Option (List Row))
    (option : Option CmtxOption) : Option (GoString × Option Field) :=
  match field, detailData with
  | some f, some rows =>
    match detailLoop option f [] rows with
    | none => none
    | some (str, f) => some (str, some f)
  | _, _ => some ([], field)

/-- The function `generateDetail`: the returned string. -/
def generateDetail (field : Option Field) (detailData : Option (List Row))
    (option : Option CmtxOption) : Option GoString :=
  match generateDetailState field detailData option with
  | none => none
  | some r => some r.1

/-! ## Document -/

/-- The struct `cmtx`. -/
structure cmtx where
  header : Option Field
  footer : Option Field
  detail : Option Field
  detailData : Option (List Row)
  option : Option CmtxOption

/-- The function `NewCmtx`. -/
def NewCmtx : cmtx := ⟨none, none, none, none, none⟩

/-- The method `Generate`, for a `cmtx` whose three field sets are distinct
objects, so that the three goroutines do not interfere: each section is computed
on its own and the three strings are joined after `wg.Wait()`. A panic in any
goroutine ends the program. -/
def Generate (c : cmtx) : Option GoString :=
  match generateHeader c.header c.option, generateDetail c.detail c.detailData c.option,
      generateFooter c.footer c.option with
  | some header, some detail, some footer => some (header ++ detail ++ footer)
  | _, _, _ => none

/-! ## Document: the three goroutines over shared field sets -/

/-- The heap of field sets: the `Field` object found at every address. -/
abbrev Heap := Nat → Field

/-- The struct `cmtx` with its three `*Field` pointers kept as addresses into the
heap (`none` is the `nil` pointer), so that two of them may name one object.
The rows and the Option are only read and stay values. -/
structure cmtxRef where
  header : Option Nat
  footer : Option Nat
  detail : Option Nat
  detailData : Option (List Row)
  option : Option CmtxOption

/-- The `cmtx` that a `cmtxRef` denotes in a heap. -/
def loadCmtx (h : Heap) (c : cmtxRef) : cmtx :=
  ⟨c.header.map h, c.footer.map h, c.detail.map h, c.detailData, c.option⟩

/-- The three goroutines started by `Generate`. -/
inductive Task where
  | header
  | detail
  | footer
  deriving DecidableEq

/-- The local variables `header`, `detail` and `footer` of `Generate`. -/
structure Sections where
  header : GoString
  detail : GoString
  footer : GoString

/-- The write-back of the template that `generateDetail` mutated in place. -/
def storeField (h : Heap) : Option Nat → Option Field → Heap
  | some a, some f => Function.update h a f
  | _, _ => h

/-- One goroutine of `Generate` run to completion on the current heap: it
assigns its local variable, and the detail goroutine leaves its template
mutated. A panic (`none`) ends the program. -/
def runTask (c : cmtxRef) : Task → Heap × Sections → Option (Heap × Sections)
  | Task.header, (h, r) =>
    match generateHeader (c.header.map h) c.option with
    | none => none
    | some s => some (h, { r with header := s })
  | Task.detail, (h, r) =>
    match generateDetailState (c.detail.map h) c.detailData c.option with
    | none => none
    | some (s, f) => some (storeField h c.detail f, { r with detail := s })
  | Task.footer, (h, r) =>
    match generateFooter (c.footer.map h) c.option with
    | none => none
    | some s => some (h, { r with footer := s })

/-- The goroutines run one after the other in the order of a schedule. -/
def runTasks (c : cmtxRef) : List Task → Heap × Sections → Option (Heap × Sections)
  | [], st => some st
  | t :: rest, st =>
    match runTask c t st with
    | none => none
    | some st => runTasks c rest st

/-- The method `Generate` under a schedule of its three goroutines: the three
variables start as `""`, the goroutines run, and after `wg.Wait()` the result is
`fmt.Sprintf("%s%s%s", header, detail, footer)`. Goroutines that touch no common
object may be taken to run one after the other in some order; a schedule is
that order. -/
def GenerateScheduled (sched : List Task) (h : Heap) (c : cmtxRef) : Option GoString :=
  match runTasks c sched (h, ⟨[], [], []⟩) with
  | none => none
  | some (_, r) => some (r.header ++ r.detail ++ r.footer)

/-! ## The value transform pipeline in the words of the specification -/

/-- Specification 4.1, step 1: start with `value`; if it is empty, substitute
`defaultValue`. -/
def specSubstitute (attr : Attribute) : GoString :=
  if attr.Value = [] then attr.DefaultValue else attr.Value

/-- Specification 4.1, step 2: if `removeChars` is non-empty, delete every
occurrence of it from the value. -/
def specRemove (attr : Attribute) (v : GoString) : GoString :=
  if attr.RemoveAllChars = [] then v else stringsReplaceAll v attr.RemoveAllChars []

/-- Specification 4.1, step 3: if both elements of `replaceChars` are non-empty,
replace every occurrence of the first by the second. -/
def specReplace (attr : Attribute) (v : GoString) : GoString :=
  if attr.ReplaceAllChars.1 = [] ∨ attr.ReplaceAllChars.2 = [] then v
  else stringsReplaceAll v attr.ReplaceAllChars.1 attr.ReplaceAllChars.2

/-- Specification 4.1: substitution first, removal second, replacement third. -/
def specTransform (attr : Attribute) : GoString :=
  specReplace attr (specRemove attr (specSubstitute attr))

/-! ## Auxiliary definitions for the statements -/

/-- The sort key of an entry whose `generateValue` does not panic. -/
def keyOf (e : GoString × Attribute) : GoString :=
  formatInt e.2.Order ++ e.1 ++ orderSep ++ (generateValue e.2).getD []

/-- The concatenation of section strings computed one after the other: a panic
in any of them is a panic of the whole. -/
def concatSections : List (Option GoString) → Option GoString
  | [] => some []
  | none :: _ => none
  | some s :: rest =>
    match concatSections rest with
    | none => none
    | some t => some (s ++ t)

/-- A template entry with its `Value` attribute blanked: what remains is all
that two templates differing only in their `Value` attributes have in common. -/
def eraseValue (e : GoString × Attribute) : GoString × Attribute :=
  (e.1, { e.2 with Value := [] })

/-- The order of two map entries by their sort keys. -/
def keyLe (x y : GoString × Attribute) : Prop := strLe (keyOf x) (keyOf y)

instance keyLeDecidable : DecidableRel keyLe :=
  fun x y => inferInstanceAs (Decidable (strLe (keyOf x) (keyOf y)))

/-- The formatted value of an entry whose `generateValue` does not panic. -/
def valueOf (e : GoString × Attribute) : GoString := (generateValue e.2).getD []

/-- The fill byte of a padding type: `0` for `lpz` and `rpz`, a space for
`lps`, `rps` and every other string. -/
def fillByte (t : GoString) : UInt8 :=
  if t = ascii "lpz" ∨ t = ascii "rpz" then 48 else 32

/-! ## Padding: helper lemmas -/

theorem ascii_space : ascii " " = [32] := by decide

theorem ascii_zero : ascii "0" = [48] := by decide

theorem len_nonneg (s : GoString) : 0 ≤ len s := by
  unfold len; omega

theorem padLoop_prepend (c : UInt8) (n : Nat) (val : GoString) :
    padLoop (fun v => [c] ++ v) n val = List.replicate n c ++ val := by
  induction n generalizing val with
  | zero => simp [padLoop]
  | succ k ih =>
    simp only [padLoop, ih]
    rw [List.replicate_succ', List.append_assoc]

theorem padLoop_append (c : UInt8) (n : Nat) (val : GoString) :
    padLoop (fun v => v ++ [c]) n val = val ++ List.replicate n c := by
  induction n generalizing val with
  | zero => simp [padLoop]
  | succ k ih =>
    simp only [padLoop, ih]
    rw [List.replicate_succ, List.append_assoc]
    rfl

theorem slicePrefix_of_le (val : GoString) (length : Int) (h0 : 0 ≤ length)
    (h1 : length ≤ len val) : slicePrefix val length = some (val.take length.toNat) := by
  unfold slicePrefix
  rw [if_pos ⟨h0, h1⟩]

theorem slicePrefix_exact (val : GoString) (length : Int) (h : len val = length) :
    slicePrefix val length = some val := by
  have h0 : 0 ≤ length := h ▸ len_nonneg val
  rw [slicePrefix_of_le val length h0 (le_of_eq h.symm)]
  have : val.length ≤ length.toNat := by unfold len at h; omega
  rw [List.take_of_length_le this]

theorem leftPad_long (val : GoString) (c : UInt8) (length : Int) (h0 : 0 ≤ length)
    (h1 : length ≤ len val) : leftPad val [c] length = some (val.take length.toNat) := by
  unfold leftPad
  have hn : (length - len val).toNat = 0 := by omega
  rw [hn]
  exact slicePrefix_of_le val length h0 h1

theorem rightPad_long (val : GoString) (c : UInt8) (length : Int) (h0 : 0 ≤ length)
    (h1 : length ≤ len val) : rightPad val [c] length = some (val.take length.toNat) := by
  unfold rightPad
  have hn : (length - len val).toNat = 0 := by omega
  rw [hn]
  exact slicePrefix_of_le val length h0 h1

theorem leftPad_short (val : GoString) (c : UInt8) (length : Int) (h : len val ≤ length) :
    leftPad val [c] length
      = some (List.replicate (length - len val).toNat c ++ val) := by
  unfold leftPad
  rw [padLoop_prepend]
  apply slicePrefix_exact
  unfold len at h ⊢
  simp only [List.length_append, List.length_replicate]
  omega

theorem rightPad_short (val : GoString) (c : UInt8) (length : Int) (h : len val ≤ length) :
    rightPad val [c] length
      = some (val ++ List.replicate (length - len val).toNat c) := by
  unfold rightPad
  rw [padLoop_append]
  apply slicePrefix_exact
  unfold len at h ⊢
  simp only [List.length_append, List.length_replicate]
  omega

theorem leftPad_neg (val pad : GoString) (length : Int) (h : length < 0) :
    leftPad val pad length = none := by
  unfold leftPad slicePrefix
  rw [if_neg]
  omega

theorem rightPad_neg (val pad : GoString) (length : Int) (h : length < 0) :
    rightPad val pad length = none := by
  unfold rightPad slicePrefix
  rw [if_neg]
  omega

theorem leftPad_len (val : GoString) (c : UInt8) (length : Int) (h0 : 0 ≤ length) :
    ∃ r, leftPad val [c] length = some r ∧ len r = length := by
  by_cases h : length ≤ len val
  · refine ⟨_, leftPad_long val c length h0 h, ?_⟩
    unfold len at h ⊢
    rw [List.length_take]
    omega
  · have h1 : len val ≤ length := by omega
    refine ⟨_, leftPad_short val c length h1, ?_⟩
    unfold len at h1 ⊢
    simp only [List.length_append, List.length_replicate]
    omega

theorem rightPad_len (val : GoString) (c : UInt8) (length : Int) (h0 : 0 ≤ length) :
    ∃ r, rightPad val [c] length = some r ∧ len r = length := by
  by_cases h : length ≤ len val
  · refine ⟨_, rightPad_long val c length h0 h, ?_⟩
    unfold len at h ⊢
    rw [List.length_take]
    omega
  · have h1 : len val ≤ length := by omega
    refine ⟨_, rightPad_short val c length h1, ?_⟩
    unfold len at h1 ⊢
    simp only [List.length_append, List.length_replicate]
    omega

theorem formatValue_len (val : GoString) (attr : Attribute) (h0 : 0 ≤ attr.Length) :
    ∃ r, formatValue val attr = some r ∧ len r = attr.Length := by
  unfold formatValue
  rw [ascii_space, ascii_zero]
  split_ifs
  · exact leftPad_len val 32 attr.Length h0
  · exact leftPad_len val 48 attr.Length h0
  · exact rightPad_len val 48 attr.Length h0
  · exact rightPad_len val 32 attr.Length h0

theorem formatValue_neg (val : GoString) (attr : Attribute) (h : attr.Length < 0) :
    formatValue val attr = none := by
  unfold formatValue
  split_ifs
  · exact leftPad_neg val _ attr.Length h
  · exact leftPad_neg val _ attr.Length h
  · exact rightPad_neg val _ attr.Length h
  · exact rightPad_neg val _ attr.Length h

theorem generateValue_eq_specTransform (attr : Attribute) :
    generateValue attr = formatValue (specTransform attr) attr := by
  unfold generateValue specTransform specReplace specRemove specSubstitute
    removeAllChars replaceAllChars
  by_cases hv : attr.Value = [] <;> by_cases hr : attr.RemoveAllChars = [] <;>
    by_cases h1 : attr.ReplaceAllChars.1 = [] <;>
    by_cases h2 : attr.ReplaceAllChars.2 = [] <;> simp [hv, hr, h1, h2]

/-! ## Padding and value transform: the claims -/

/-- C1: for a descriptor with a non-negative `Length`, whatever its padding
`Type`, `Value`, `DefaultValue`, `RemoveAllChars` and `ReplaceAllChars` are,
`generateValue` returns a string of exactly `Length` bytes. -/
theorem generateValue_has_length (attr : Attribute) (h0 : 0 ≤ attr.Length) :
    ∃ r, generateValue attr = some r ∧ len r = attr.Length := by
  rw [generateValue_eq_specTransform]
  exact formatValue_len _ attr h0

theorem generateValue_has_length_witness :
    (0 : Int) ≤ (Attribute.mk 1 (ascii "lpz") 6 (ascii "1234567") [] [] ([], [])).Length ∧
    ∃ r, generateValue (Attribute.mk 1 (ascii "lpz") 6 (ascii "1234567") [] [] ([], []))
        = some r ∧
      len r = (Attribute.mk 1 (ascii "lpz") 6 (ascii "1234567") [] [] ([], [])).Length :=
  ⟨by decide, generateValue_has_length _ (by decide)⟩

/-- C2: when `0 <= Length <= len(s)`, formatting `s` yields exactly the first
`Length` bytes of `s` for every padding type (so for `lps`, `lpz`, `rps` and
`rpz` alike): the trailing bytes of an over-length input are dropped, never the
leading ones, and an input of exactly `Length` bytes is returned unchanged. -/
theorem formatValue_keeps_prefix (s : GoString) (attr : Attribute)
    (h0 : 0 ≤ attr.Length) (h1 : attr.Length ≤ len s) :
    formatValue s attr = some (s.take attr.Length.toNat) ∧
      (attr.Length = len s → formatValue s attr = some s) := by
  have key : formatValue s attr = some (s.take attr.Length.toNat) := by
    unfold formatValue
    rw [ascii_space, ascii_zero]
    split_ifs
    · exact leftPad_long s 32 attr.Length h0 h1
    · exact leftPad_long s 48 attr.Length h0 h1
    · exact rightPad_long s 48 attr.Length h0 h1
    · exact rightPad_long s 32 attr.Length h0 h1
  refine ⟨key, fun he => ?_⟩
  rw [key]
  have : s.length ≤ attr.Length.toNat := by unfold len at he; omega
  rw [List.take_of_length_le this]

theorem formatValue_keeps_prefix_witness :
    formatValue (ascii "12345") (Attribute.mk 1 (ascii "lpz") 4 (ascii "12345") [] [] ([], []))
        = some ((ascii "12345").take
            (Attribute.mk 1 (ascii "lpz") 4 (ascii "12345") [] [] ([], [])).Length.toNat) ∧
      ((Attribute.mk 1 (ascii "lpz") 4 (ascii "12345") [] [] ([], [])).Length
          = len (ascii "12345") →
        formatValue (ascii "12345")
            (Attribute.mk 1 (ascii "lpz") 4 (ascii "12345") [] [] ([], []))
          = some (ascii "12345")) :=
  formatValue_keeps_prefix (ascii "12345")
    (Attribute.mk 1 (ascii "lpz") 4 (ascii "12345") [] [] ([], [])) (by decide) (by decide)

/-- C3: when `Length > len(s)`, type `lps` yields `Length - len(s)` spaces
followed by `s`, `lpz` as many `0` bytes followed by `s`, `rpz` yields `s`
followed by as many `0` bytes, and `rps` and every other `Type` string (the
empty one included) yield `s` followed by as many spaces. -/
theorem formatValue_pads (s : GoString) (attr : Attribute) (h : len s < attr.Length) :
    (attr.Type_ = ascii "lps" →
        formatValue s attr = some (List.replicate (attr.Length - len s).toNat 32 ++ s)) ∧
      (attr.Type_ = ascii "lpz" →
        formatValue s attr = some (List.replicate (attr.Length - len s).toNat 48 ++ s)) ∧
      (attr.Type_ = ascii "rpz" →
        formatValue s attr = some (s ++ List.replicate (attr.Length - len s).toNat 48)) ∧
      (attr.Type_ ≠ ascii "lps" → attr.Type_ ≠ ascii "lpz" → attr.Type_ ≠ ascii "rpz" →
        formatValue s attr = some (s ++ List.replicate (attr.Length - len s).toNat 32)) := by
  have hle : len s ≤ attr.Length := le_of_lt h
  refine ⟨fun ht => ?_, fun ht => ?_, fun ht => ?_, fun h1 h2 h3 => ?_⟩
  · unfold formatValue
    rw [if_pos ht, ascii_space]
    exact leftPad_short s 32 attr.Length hle
  · have hn : attr.Type_ ≠ ascii "lps" := by rw [ht]; decide
    unfold formatValue
    rw [if_neg hn, if_pos ht, ascii_zero]
    exact leftPad_short s 48 attr.Length hle
  · have hn1 : attr.Type_ ≠ ascii "lps" := by rw [ht]; decide
    have hn2 : attr.Type_ ≠ ascii "lpz" := by rw [ht]; decide
    unfold formatValue
    rw [if_neg hn1, if_neg hn2, if_pos ht, ascii_zero]
    exact rightPad_short s 48 attr.Length hle
  · unfold formatValue
    rw [if_neg h1, if_neg h2, if_neg h3, ascii_space]
    exact rightPad_short s 32 attr.Length hle

theorem formatValue_pads_witness :
    len (ascii "1") < (Attribute.mk 1 (ascii "lpz") 5 (ascii "1") [] [] ([], [])).Length ∧
      formatValue (ascii "1") (Attribute.mk 1 (ascii "lpz") 5 (ascii "1") [] [] ([], []))
        = some (ascii "00001") :=
  ⟨by decide,
    ((formatValue_pads (ascii "1")
      (Attribute.mk 1 (ascii "lpz") 5 (ascii "1") [] [] ([], [])) (by decide)).2.1
        (by decide)).trans (by decide)⟩

/-- C4: the string that `generateValue` width-formats is `replace(remove(v))`:
`v` is `Value` when `Value` is non-empty (so a `Value` of `"0"` wins) and
`DefaultValue` otherwise; the removal runs only for a non-empty
`RemoveAllChars`; the replacement runs only when both elements of
`ReplaceAllChars` are non-empty; substitution comes first, removal second,
replacement third, and padding or truncation last. -/
theorem generateValue_pipeline (attr : Attribute) :
    generateValue attr
        = formatValue (specReplace attr (specRemove attr (specSubstitute attr))) attr ∧
      (attr.Value ≠ [] → specSubstitute attr = attr.Value) ∧
      (attr.Value = [] → specSubstitute attr = attr.DefaultValue) ∧
      (attr.Value = ascii "0" → specSubstitute attr = ascii "0") ∧
      (∀ v, attr.RemoveAllChars ≠ [] →
        specRemove attr v = removeAllChars v attr.RemoveAllChars) ∧
      (∀ v, attr.RemoveAllChars = [] → specRemove attr v = v) ∧
      (∀ v, attr.ReplaceAllChars.1 ≠ [] → attr.ReplaceAllChars.2 ≠ [] →
        specReplace attr v
          = replaceAllChars v attr.ReplaceAllChars.1 attr.ReplaceAllChars.2) ∧
      (∀ v, attr.ReplaceAllChars.1 = [] ∨ attr.ReplaceAllChars.2 = [] →
        specReplace attr v = v) := by
  refine ⟨generateValue_eq_specTransform attr, ?_, ?_, ?_, ?_, ?_, ?_, ?_⟩
  · intro h
    unfold specSubstitute
    rw [if_neg h]
  · intro h
    unfold specSubstitute
    rw [if_pos h]
  · intro h
    have hne : attr.Value ≠ [] := by rw [h]; decide
    unfold specSubstitute
    rw [if_neg hne, h]
  · intro v h
    unfold specRemove removeAllChars
    rw [if_neg h]
  · intro v h
    unfold specRemove
    rw [if_pos h]
  · intro v h1 h2
    have hn : ¬ (attr.ReplaceAllChars.1 = [] ∨ attr.ReplaceAllChars.2 = []) := by
      rintro (h | h)
      · exact h1 h
      · exact h2 h
    unfold specReplace replaceAllChars
    rw [if_neg hn]
  · intro v h
    unfold specReplace
    rw [if_pos h]

/-! ## Library loops: the round bounds are enough -/

theorem stringsIndex_nil (sep : GoString) (h : sep ≠ []) : stringsIndex [] sep = none := by
  unfold stringsIndex
  cases sep with
  | nil => exact absurd rfl h
  | cons c t => rfl

theorem splitRounds_fuel (sep : GoString) (hsep : sep ≠ []) (f : Nat) :
    ∀ (g : Nat) (s : GoString), s.length ≤ f → s.length ≤ g →
      splitRounds sep f s = splitRounds sep g s := by
  induction f with
  | zero =>
    intro g s hf _
    have hs : s = [] := List.length_eq_zero.mp (by omega)
    subst hs
    cases g with
    | zero => rfl
    | succ k => simp only [splitRounds, stringsIndex_nil sep hsep]
  | succ k ih =>
    intro g s hf hg
    cases g with
    | zero =>
      have hs : s = [] := List.length_eq_zero.mp (by omega)
      subst hs
      simp only [splitRounds, stringsIndex_nil sep hsep]
    | succ m =>
      simp only [splitRounds]
      cases stringsIndex s sep with
      | none => rfl
      | some j =>
        have hpos : 0 < sep.length := List.length_pos.mpr hsep
        have hd : (s.drop (j + sep.length)).length ≤ k := by
          rw [List.length_drop]; omega
        have hd2 : (s.drop (j + sep.length)).length ≤ m := by
          rw [List.length_drop]; omega
        simp only [ih m _ hd hd2]

theorem replaceRounds_fuel (old new : GoString) (hold : old ≠ []) (f : Nat) :
    ∀ (g : Nat) (s : GoString), s.length ≤ f → s.length ≤ g →
      replaceRounds old new f s = replaceRounds old new g s := by
  induction f with
  | zero =>
    intro g s hf _
    have hs : s = [] := List.length_eq_zero.mp (by omega)
    subst hs
    cases g with
    | zero => rfl
    | succ k => simp only [replaceRounds, stringsIndex_nil old hold]
  | succ k ih =>
    intro g s hf hg
    cases g with
    | zero =>
      have hs : s = [] := List.length_eq_zero.mp (by omega)
      subst hs
      simp only [replaceRounds, stringsIndex_nil old hold]
    | succ m =>
      simp only [replaceRounds]
      cases stringsIndex s old with
      | none => rfl
      | some j =>
        have hpos : 0 < old.length := List.length_pos.mpr hold
        have hd : (s.drop (j + old.length)).length ≤ k := by
          rw [List.length_drop]; omega
        have hd2 : (s.drop (j + old.length)).length ≤ m := by
          rw [List.length_drop]; omega
        simp only [ih m _ hd hd2]

/-! ## String order: helper lemmas -/

theorem strLess_irrefl (a : GoString) : strLess a a = false := by
  induction a with
  | nil => rfl
  | cons x s ih => simp [strLess, ih]

theorem strLess_asymm (a b : GoString) (h : strLess a b = true) : strLess b a = false := by
  induction a generalizing b with
  | nil => cases b <;> simp_all [strLess]
  | cons x s ih =>
    cases b with
    | nil => simp_all [strLess]
    | cons y t =>
      simp only [strLess, Bool.or_eq_true, Bool.and_eq_true, decide_eq_true_eq] at h
      simp only [strLess, Bool.or_eq_false_iff, Bool.and_eq_false_iff, decide_eq_false_iff_not]
      rcases h with h | ⟨hxy, hst⟩
      · refine ⟨by omega, Or.inl ?_⟩
        intro he
        rw [he] at h
        omega
      · refine ⟨by rw [hxy]; omega, Or.inr (ih t hst)⟩

theorem strLe_total (a b : GoString) : strLe a b ∨ strLe b a := by
  unfold strLe
  by_cases h : strLess b a = true
  · exact Or.inr (strLess_asymm b a h)
  · exact Or.inl (by simpa using h)

theorem strLe_antisymm (a b : GoString) (h1 : strLe a b) (h2 : strLe b a) : a = b := by
  unfold strLe at h1 h2
  induction a generalizing b with
  | nil => cases b <;> simp_all [strLess]
  | cons x s ih =>
    cases b with
    | nil => simp_all [strLess]
    | cons y t =>
      simp only [strLess, Bool.or_eq_false_iff, Bool.and_eq_false_iff,
        decide_eq_false_iff_not] at h1 h2
      have hxy : x = y := UInt8.ext (by omega)
      subst hxy
      have e1 : strLess t s = false := by
        rcases h1.2 with h | h
        · exact absurd rfl h
        · exact h
      have e2 : strLess s t = false := by
        rcases h2.2 with h | h
        · exact absurd rfl h
        · exact h
      rw [ih t e1 e2]

theorem strLess_trans (a b c : GoString) (h1 : strLess a b = true)
    (h2 : strLess b c = true) : strLess a c = true := by
  induction a generalizing b c with
  | nil =>
    cases b with
    | nil => simp [strLess] at h1
    | cons y t =>
      cases c with
      | nil => simp [strLess] at h2
      | cons z u => rfl
  | cons x s ih =>
    cases b with
    | nil => simp [strLess] at h1
    | cons y t =>
      cases c with
      | nil => simp [strLess] at h2
      | cons z u =>
        simp only [strLess, Bool.or_eq_true, Bool.and_eq_true, decide_eq_true_eq] at h1 h2 ⊢
        rcases h1 with h1 | ⟨e1, l1⟩
        · rcases h2 with h2 | ⟨e2, _⟩
          · exact Or.inl (by omega)
          · exact Or.inl (by rw [← e2]; exact h1)
        · rcases h2 with h2 | ⟨e2, l2⟩
          · exact Or.inl (by rw [e1]; exact h2)
          · exact Or.inr ⟨e1.trans e2, ih t u l1 l2⟩

theorem strLe_of_strLess (a b : GoString) (h : strLess a b = true) : strLe a b :=
  strLess_asymm a b h

theorem strLe_trans (a b c : GoString) (h1 : strLe a b) (h2 : strLe b c) : strLe a c := by
  unfold strLe at *
  by_contra hc
  have hca : strLess c a = true := by simpa using hc
  by_cases hab : strLess a b = true
  · have := strLess_trans c a b hca hab
    rw [h2] at this
    exact Bool.false_ne_true this
  · have hab2 : strLe b a := by
      unfold strLe
      simpa using hab
    have e : a = b := strLe_antisymm a b h1 hab2
    subst e
    rw [h2] at hca
    exact Bool.false_ne_true hca

instance strLe_isTotal : IsTotal GoString strLe := ⟨strLe_total⟩

instance strLe_isTrans : IsTrans GoString strLe := ⟨strLe_trans⟩

instance strLe_isAntisymm : IsAntisymm GoString strLe := ⟨strLe_antisymm⟩

theorem sortStrings_perm (x y : List GoString) (h : x.Perm y) :
    sortStrings x = sortStrings y := by
  unfold sortStrings
  apply List.eq_of_perm_of_sorted (r := strLe)
  · exact ((List.perm_insertionSort strLe x).trans h).trans
      (List.perm_insertionSort strLe y).symm
  · exact List.sorted_insertionSort strLe x
  · exact List.sorted_insertionSort strLe y

theorem sortStrings_of_sorted (x : List GoString) (h : x.Pairwise strLe) :
    sortStrings x = x :=
  List.Sorted.insertionSort_eq h

theorem strLess_append_left (p u v : GoString) :
    strLess (p ++ u) (p ++ v) = strLess u v := by
  induction p with
  | nil => rfl
  | cons x s ih => simp [strLess, ih]

/-! ## Decimal text: helper lemmas -/

theorem decimalRounds_fuel (f g n : Nat) (hf : n < f) (hg : n < g) :
    decimalRounds f n = decimalRounds g n := by
  induction f generalizing g n with
  | zero => omega
  | succ k ih =>
    cases g with
    | zero => omega
    | succ m =>
      unfold decimalRounds
      by_cases h : n < 10
      · rw [if_pos h, if_pos h]
      · rw [if_neg h, if_neg h, ih m (n / 10) (by omega) (by omega)]

theorem decimalRounds_unfold (n : Nat) :
    decimalRounds (n + 1) n
      = if n < 10 then [UInt8.ofNat (48 + n)]
        else decimalRounds (n / 10 + 1) (n / 10) ++ [UInt8.ofNat (48 + n % 10)] := by
  conv_lhs => unfold decimalRounds
  by_cases h : n < 10
  · rw [if_pos h, if_pos h]
  · rw [if_neg h, if_neg h, decimalRounds_fuel n (n / 10 + 1) (n / 10) (by omega) (by omega)]

theorem decimalRounds_length_pos (n : Nat) : 0 < (decimalRounds (n + 1) n).length := by
  rw [decimalRounds_unfold]
  by_cases h : n < 10
  · rw [if_pos h]; simp
  · rw [if_neg h]; simp

theorem digit_toNat (d : Nat) (h : d < 10) : (UInt8.ofNat (48 + d)).toNat = 48 + d :=
  UInt8.toNat_ofNat_of_lt (by unfold UInt8.size; omega)

theorem strLess_digit (a b : Nat) (ha : a < 10) (hb : b < 10) (hab : a < b)
    (x y : GoString) :
    strLess ([UInt8.ofNat (48 + a)] ++ x) ([UInt8.ofNat (48 + b)] ++ y) = true := by
  simp only [List.singleton_append, strLess, Bool.or_eq_true, decide_eq_true_eq]
  left
  rw [digit_toNat a ha, digit_toNat b hb]
  omega

theorem decimal_lex (b : Nat) : ∀ a : Nat, a < b →
    (decimalRounds (a + 1) a).length = (decimalRounds (b + 1) b).length →
    ∀ x y : GoString,
      strLess (decimalRounds (a + 1) a ++ x) (decimalRounds (b + 1) b ++ y) = true := by
  induction b using Nat.strong_induction_on with
  | _ b ih =>
    intro a hab hlen x y
    rw [decimalRounds_unfold a, decimalRounds_unfold b] at hlen ⊢
    by_cases ha : a < 10
    · by_cases hb : b < 10
      · rw [if_pos ha, if_pos hb]
        exact strLess_digit a b ha hb hab x y
      · rw [if_pos ha, if_neg hb] at hlen
        have := decimalRounds_length_pos (b / 10)
        simp only [List.length_singleton, List.length_append] at hlen
        omega
    · have hb : ¬ b < 10 := by omega
      rw [if_neg ha, if_neg hb] at hlen ⊢
      simp only [List.length_singleton, List.length_append, add_left_inj] at hlen
      rw [List.append_assoc, List.append_assoc]
      by_cases hq : a / 10 < b / 10
      · exact ih (b / 10) (by omega) (a / 10) hq hlen _ _
      · have he : a / 10 = b / 10 := by omega
        rw [he, strLess_append_left]
        exact strLess_digit (a % 10) (b % 10) (by omega) (by omega) (by omega) x y

theorem formatInt_of_nonneg (i : Int) (h : 0 ≤ i) :
    formatInt i = decimalRounds (i.natAbs + 1) i.natAbs := by
  unfold formatInt
  rw [if_neg (by omega)]

theorem formatInt_lex (i j : Int) (hi : 0 ≤ i) (hij : i < j)
    (hlen : (formatInt i).length = (formatInt j).length) (x y : GoString) :
    strLess (formatInt i ++ x) (formatInt j ++ y) = true := by
  rw [formatInt_of_nonneg i hi, formatInt_of_nonneg j (by omega)] at hlen ⊢
  exact decimal_lex j.natAbs i.natAbs (by omega) hlen x y

/-! ## Section assembly: helper lemmas -/

theorem collectOrders_some (f : Field) (h : ∀ e ∈ f, generateValue e.2 ≠ none) :
    collectOrders f = some (f.map keyOf) := by
  induction f with
  | nil => rfl
  | cons e rest ih =>
    obtain ⟨key, attr⟩ := e
    have h1 : generateValue attr ≠ none := h (key, attr) (List.mem_cons_self _ _)
    have h2 := ih (fun e he => h e (List.mem_cons_of_mem _ he))
    obtain ⟨v, hv⟩ := Option.ne_none_iff_exists'.mp h1
    simp only [collectOrders, sortKey, hv, h2, List.map_cons, keyOf, Option.getD_some]

theorem collectOrders_none (f : Field) (h : ∃ e ∈ f, generateValue e.2 = none) :
    collectOrders f = none := by
  induction f with
  | nil =>
    obtain ⟨e, he, _⟩ := h
    cases he
  | cons e rest ih =>
    obtain ⟨key, attr⟩ := e
    cases hv : generateValue attr with
    | none => simp only [collectOrders, sortKey, hv]
    | some v =>
      have hr : ∃ e ∈ rest, generateValue e.2 = none := by
        obtain ⟨e, he, hn⟩ := h
        rcases List.mem_cons.mp he with rfl | hmem
        · rw [hv] at hn
          cases hn
        · exact ⟨e, hmem, hn⟩
      simp only [collectOrders, sortKey, hv, ih hr]

theorem generateCommon_some (f : Field) (h : ∀ e ∈ f, generateValue e.2 ≠ none) :
    generateCommon (some f) = joinOrders [] (sortStrings (f.map keyOf)) := by
  simp only [generateCommon, collectOrders_some f h]

theorem generateCommon_none (f : Field) (h : ∃ e ∈ f, generateValue e.2 = none) :
    generateCommon (some f) = none := by
  simp only [generateCommon, collectOrders_none f h]

theorem generateCommon_perm (p q : Field) (h : p.Perm q) :
    generateCommon (some p) = generateCommon (some q) := by
  by_cases hall : ∀ e ∈ p, generateValue e.2 ≠ none
  · have hall2 : ∀ e ∈ q, generateValue e.2 ≠ none := fun e he => hall e (h.mem_iff.mpr he)
    rw [generateCommon_some p hall, generateCommon_some q hall2,
      sortStrings_perm _ _ (h.map keyOf)]
  · have hex : ∃ e ∈ p, generateValue e.2 = none := by
      by_contra hc
      exact hall (fun e he hn => hc ⟨e, he, hn⟩)
    obtain ⟨e, he, hn⟩ := hex
    rw [generateCommon_none p ⟨e, he, hn⟩, generateCommon_none q ⟨e, h.mem_iff.mp he, hn⟩]

theorem keyOf_sorted (asc : Field)
    (hord : asc.Pairwise (fun x y => x.2.Order < y.2.Order))
    (hnn : ∀ x ∈ asc, 0 ≤ x.2.Order)
    (hdig : ∀ x ∈ asc, ∀ y ∈ asc,
      (formatInt x.2.Order).length = (formatInt y.2.Order).length) :
    (asc.map keyOf).Pairwise strLe := by
  rw [List.pairwise_map]
  refine List.Pairwise.imp_of_mem ?_ hord
  intro x y hx hy hxy
  apply strLe_of_strLess
  unfold keyOf
  rw [List.append_assoc, List.append_assoc, List.append_assoc, List.append_assoc]
  exact formatInt_lex _ _ (hnn x hx) hxy (hdig x hx y hy) _ _

/-! ## Section assembly: the claims -/

/-- C5: let the orders of a field set be pairwise distinct, non-negative and of
the same number of decimal digits (as 1, 2, 3 are), and let `asc` list its
entries by ascending `order`. Whatever order `p` the map is enumerated in and
whatever the field names are, the sorted keys of `generateCommon` are the keys
of `asc` in that order, and the section is the second loop run over them: the
fields are emitted in ascending numeric order of `order`. -/
theorem generateCommon_ascending (asc p : Field)
    (hord : asc.Pairwise (fun x y => x.2.Order < y.2.Order))
    (hnn : ∀ x ∈ asc, 0 ≤ x.2.Order)
    (hdig : ∀ x ∈ asc, ∀ y ∈ asc,
      (formatInt x.2.Order).length = (formatInt y.2.Order).length)
    (hp : p.Perm asc) :
    (∀ keys, collectOrders p = some keys → collectOrders asc = some (sortStrings keys)) ∧
      generateCommon (some p) = (collectOrders asc).bind (joinOrders []) := by
  by_cases hall : ∀ e ∈ asc, generateValue e.2 ≠ none
  · have hallp : ∀ e ∈ p, generateValue e.2 ≠ none := fun e he => hall e (hp.mem_iff.mp he)
    have hs : sortStrings (p.map keyOf) = asc.map keyOf := by
      rw [sortStrings_perm _ _ (hp.map keyOf)]
      exact sortStrings_of_sorted _ (keyOf_sorted asc hord hnn hdig)
    constructor
    · intro keys hk
      rw [collectOrders_some p hallp] at hk
      cases hk
      rw [hs]
      exact collectOrders_some asc hall
    · rw [generateCommon_some p hallp, hs, collectOrders_some asc hall]
      rfl
  · have hex : ∃ e ∈ asc, generateValue e.2 = none := by
      by_contra hc
      exact hall (fun e he hn => hc ⟨e, he, hn⟩)
    obtain ⟨e, he, hn⟩ := hex
    constructor
    · intro keys hk
      rw [collectOrders_none p ⟨e, hp.mem_iff.mpr he, hn⟩] at hk
      cases hk
    · rw [generateCommon_none p ⟨e, hp.mem_iff.mpr he, hn⟩,
        collectOrders_none asc ⟨e, he, hn⟩]
      rfl

theorem generateCommon_ascending_witness :
    generateCommon (some
        [(ascii "third", Attribute.mk 3 (ascii "lps") 5 (ascii "Third") [] [] ([], [])),
          (ascii "first", Attribute.mk 1 (ascii "lps") 5 (ascii "First") [] [] ([], [])),
          (ascii "second", Attribute.mk 2 (ascii "lps") 6 (ascii "Second") [] [] ([], []))])
      = some (ascii "FirstSecondThird") :=
  Eq.trans (generateCommon_ascending
    [(ascii "first", Attribute.mk 1 (ascii "lps") 5 (ascii "First") [] [] ([], [])),
      (ascii "second", Attribute.mk 2 (ascii "lps") 6 (ascii "Second") [] [] ([], [])),
      (ascii "third", Attribute.mk 3 (ascii "lps") 5 (ascii "Third") [] [] ([], []))]
    [(ascii "third", Attribute.mk 3 (ascii "lps") 5 (ascii "Third") [] [] ([], [])),
      (ascii "first", Attribute.mk 1 (ascii "lps") 5 (ascii "First") [] [] ([], [])),
      (ascii "second", Attribute.mk 2 (ascii "lps") 6 (ascii "Second") [] [] ([], []))]
    (by decide) (by decide) (by decide) (by decide)).2 (by decide)

/-- C6 (failing input): a header field set with the single field `n` of type
`rps`, `Length` 27 and a `Value` equal to the 27 bytes of `orderSep`. Its
formatted value is those 27 bytes, yet `generateCommon` returns the empty
string: `strings.Split(key, orderSep)[1]` is the text between the first and the
second occurrence of the separator, which is empty here, so the field does not
contribute its formatted value. -/
theorem generateCommon_drops_separator_value :
    generateValue (Attribute.mk 1 (ascii "rps") 27 orderSep [] [] ([], [])) = some orderSep ∧
      generateCommon (some
        [(ascii "n", Attribute.mk 1 (ascii "rps") 27 orderSep [] [] ([], []))]) = some [] := by
  decide

/-- C7 (failing input): a detail template with the single field `n` of type
`rps` and `Length` 27, one row binding `n` to the 27 bytes of `orderSep`, and no
Option. The sum of the field lengths is 27 and there is one row, yet
`generateDetail` returns the empty string instead of one block of 27 bytes. -/
theorem generateDetail_short_block :
    generateDetail (some [(ascii "n", Attribute.mk 1 (ascii "rps") 27 [] [] [] ([], []))])
        (some [[(ascii "n", RowValue.str orderSep)]]) none = some [] ∧
      (generateDetail (some [(ascii "n", Attribute.mk 1 (ascii "rps") 27 [] [] [] ([], []))])
        (some [[(ascii "n", RowValue.str orderSep)]]) none).map len ≠ some (1 * 27) := by
  decide

/-! ## Detail rows: helper lemmas -/

theorem bindValue_bindValue (v w : Row) (n : GoString) (attr : Attribute) :
    bindValue v n (bindValue w n attr) = bindValue v n attr := by
  unfold bindValue
  by_cases hw : rowGet w n ≠ RowValue.str [] ∧ rowGet w n ≠ RowValue.nil
  · simp only [if_pos hw]
  · simp only [if_neg hw]

theorem bindRow_bindRow (v w : Row) (field : Field) :
    bindRow v (bindRow w field) = bindRow v field := by
  unfold bindRow
  rw [List.map_map]
  apply List.map_congr_left
  intro e _
  simp only [Function.comp, bindValue_bindValue]

theorem detailLoop_cons (option : Option CmtxOption) (field : Field) (str : GoString)
    (v : Row) (rest : List Row) :
    detailLoop option field str (v :: rest)
      = match generateHeader (some (bindRow v field)) option with
        | none => none
        | some s => detailLoop option (bindRow v field) (str ++ s) rest := by
  simp only [detailLoop, generateHeader]
  cases generateCommon (some (bindRow v field)) with
  | none => rfl
  | some cStr =>
    cases option with
    | none => rfl
    | some o =>
      by_cases hne : cStr ≠ []
      · simp only [if_pos hne]
        cases formatMaxLength cStr o.MaxLengthPerSection with
        | none => rfl
        | some m =>
          by_cases ha : o.AddCharPerSection ≠ []
          · simp only [if_pos ha]
          · simp only [if_neg ha]
      · simp only [if_neg hne]

theorem detailLoop_eq (option : Option CmtxOption) (rows : List Row) :
    ∀ (field : Field) (str : GoString),
      detailLoop option field str rows
        = (concatSections
            (rows.map (fun v => generateHeader (some (bindRow v field)) option))).map
          (fun t => (str ++ t, rows.foldl (fun f v => bindRow v f) field)) := by
  induction rows with
  | nil =>
    intro field str
    simp [detailLoop, concatSections]
  | cons v rest ih =>
    intro field str
    have hfun : (fun w => generateHeader (some (bindRow w (bindRow v field))) option)
        = (fun w => generateHeader (some (bindRow w field)) option) := by
      funext w
      rw [bindRow_bindRow]
    rw [detailLoop_cons, List.map_cons, List.foldl_cons]
    cases generateHeader (some (bindRow v field)) option with
    | none => simp [concatSections]
    | some s =>
      simp only [ih, hfun, concatSections]
      cases concatSections
          (rest.map (fun w => generateHeader (some (bindRow w field)) option)) with
      | none => rfl
      | some t => simp [List.append_assoc]

theorem generateDetail_eq (field : Field) (rows : List Row) (option : Option CmtxOption) :
    generateDetail (some field) (some rows) option
      = concatSections (rows.map (fun v => generateHeader (some (bindRow v field)) option)) := by
  simp only [generateDetail, generateDetailState, detailLoop_eq]
  cases concatSections (rows.map (fun v => generateHeader (some (bindRow v field)) option)) with
  | none => rfl
  | some t => simp

/-! ## Totality of the section assembler: helper lemmas -/

theorem stringsIndex_append_sep (sep v : GoString) :
    ∀ a : GoString, ∃ m, stringsIndex (a ++ (sep ++ v)) sep = some m := by
  intro a
  induction a with
  | nil =>
    refine ⟨0, ?_⟩
    have hp : sep.isPrefixOf ([] ++ (sep ++ v)) = true := by
      rw [List.nil_append, List.isPrefixOf_iff_prefix]
      exact List.prefix_append sep v
    unfold stringsIndex
    rw [if_pos hp]
  | cons c rest ih =>
    obtain ⟨m, hm⟩ := ih
    by_cases hp : sep.isPrefixOf (c :: rest ++ (sep ++ v)) = true
    · refine ⟨0, ?_⟩
      unfold stringsIndex
      rw [if_pos hp]
    · refine ⟨m + 1, ?_⟩
      unfold stringsIndex
      rw [if_neg hp]
      simp only [List.cons_append, hm]

theorem splitRounds_ne_nil (sep : GoString) (fuel : Nat) (s : GoString) :
    splitRounds sep fuel s ≠ [] := by
  cases fuel with
  | zero => simp [splitRounds]
  | succ k =>
    unfold splitRounds
    cases stringsIndex s sep with
    | none => simp
    | some m => simp

theorem stringsSplit_second (a v : GoString) :
    ∃ piece, (stringsSplit (a ++ (orderSep ++ v)) orderSep)[1]? = some piece := by
  obtain ⟨m, hm⟩ := stringsIndex_append_sep orderSep v a
  have hlen : (a ++ (orderSep ++ v)).length = (a.length + v.length + 26) + 1 := by
    have h27 : orderSep.length = 27 := by decide
    simp only [List.length_append, h27]
    omega
  unfold stringsSplit
  rw [hlen]
  unfold splitRounds
  rw [hm]
  cases hr : splitRounds orderSep (a.length + v.length + 26)
      ((a ++ (orderSep ++ v)).drop (m + orderSep.length)) with
  | nil => exact absurd hr (splitRounds_ne_nil _ _ _)
  | cons y ys => exact ⟨y, by simp only [hr, List.getElem?_cons_succ, List.getElem?_cons_zero]⟩

theorem joinOrders_some (l : List GoString)
    (h : ∀ s ∈ l, ∃ piece, (stringsSplit s orderSep)[1]? = some piece) :
    ∀ str : GoString, ∃ r, joinOrders str l = some r := by
  induction l with
  | nil => exact fun str => ⟨str, rfl⟩
  | cons s rest ih =>
    intro str
    obtain ⟨piece, hpiece⟩ := h s (List.mem_cons_self _ _)
    obtain ⟨r, hr⟩ := ih (fun t ht => h t (List.mem_cons_of_mem _ ht)) (str ++ piece)
    exact ⟨r, by simp only [joinOrders, hpiece, hr]⟩

theorem generateValue_ne_none (attr : Attribute) (h : 0 ≤ attr.Length) :
    generateValue attr ≠ none := by
  rw [generateValue_eq_specTransform]
  obtain ⟨r, hr, _⟩ := formatValue_len (specTransform attr) attr h
  rw [hr]
  exact Option.some_ne_none r

theorem generateValue_eq_none_iff (attr : Attribute) :
    generateValue attr = none ↔ attr.Length < 0 := by
  constructor
  · intro hn
    by_contra hc
    exact generateValue_ne_none attr (by omega) hn
  · intro hneg
    rw [generateValue_eq_specTransform]
    exact formatValue_neg _ attr hneg

theorem generateCommon_total (f : Field) (h : ∀ e ∈ f, 0 ≤ e.2.Length) :
    ∃ r, generateCommon (some f) = some r := by
  rw [generateCommon_some f (fun e he => generateValue_ne_none e.2 (h e he))]
  apply joinOrders_some
  intro s hs
  unfold sortStrings at hs
  rw [List.mem_insertionSort] at hs
  obtain ⟨e, _, rfl⟩ := List.mem_map.mp hs
  unfold keyOf
  rw [List.append_assoc (formatInt e.2.Order ++ e.1)]
  exact stringsSplit_second _ _

theorem formatMaxLength_total (s : GoString) (m : Int) (h : 0 ≤ m) :
    ∃ r, formatMaxLength s m = some r := by
  unfold formatMaxLength
  by_cases hm : m ≠ 0
  · rw [if_pos hm, ascii_space]
    obtain ⟨r, hr, _⟩ := rightPad_len s 32 m h
    exact ⟨r, hr⟩
  · rw [if_neg hm]
    exact ⟨s, rfl⟩

theorem generateHeader_total (f : Field) (option : Option CmtxOption)
    (h : ∀ e ∈ f, 0 ≤ e.2.Length)
    (ho : ∀ o, option = some o → 0 ≤ o.MaxLengthPerSection) :
    ∃ r, generateHeader (some f) option = some r := by
  obtain ⟨c, hc⟩ := generateCommon_total f h
  unfold generateHeader
  rw [hc]
  cases option with
  | none => exact ⟨c, rfl⟩
  | some o =>
    obtain ⟨m, hm⟩ := formatMaxLength_total c o.MaxLengthPerSection (ho o rfl)
    by_cases hne : c ≠ []
    · by_cases ha : o.AddCharPerSection ≠ []
      · exact ⟨addCharAtTrail m o.AddCharPerSection, by simp only [if_pos hne, hm, if_pos ha]⟩
      · exact ⟨m, by simp only [if_pos hne, hm, if_neg ha]⟩
    · exact ⟨c, by simp only [if_neg hne]⟩

theorem concatSections_some (l : List (Option GoString)) (h : ∀ x ∈ l, ∃ r, x = some r) :
    ∃ r, concatSections l = some r := by
  induction l with
  | nil => exact ⟨[], rfl⟩
  | cons x rest ih =>
    obtain ⟨a, rfl⟩ := h x (List.mem_cons_self _ _)
    obtain ⟨t, ht⟩ := ih (fun y hy => h y (List.mem_cons_of_mem _ hy))
    exact ⟨a ++ t, by simp only [concatSections, ht]⟩

theorem bindValue_length (v : Row) (n : GoString) (attr : Attribute) :
    (bindValue v n attr).Length = attr.Length := by
  unfold bindValue
  by_cases hw : rowGet v n ≠ RowValue.str [] ∧ rowGet v n ≠ RowValue.nil
  · simp only [if_pos hw]
  · simp only [if_neg hw]

theorem bindRow_length (v : Row) (field : Field) (h : ∀ e ∈ field, 0 ≤ e.2.Length) :
    ∀ e ∈ bindRow v field, 0 ≤ e.2.Length := by
  intro e he
  unfold bindRow at he
  obtain ⟨e0, he0, rfl⟩ := List.mem_map.mp he
  simp only [bindValue_length]
  exact h e0 he0

theorem generateDetail_total (field : Field) (rows : List Row) (option : Option CmtxOption)
    (h : ∀ e ∈ field, 0 ≤ e.2.Length)
    (ho : ∀ o, option = some o → 0 ≤ o.MaxLengthPerSection) :
    ∃ r, generateDetail (some field) (some rows) option = some r := by
  rw [generateDetail_eq]
  apply concatSections_some
  intro x hx
  obtain ⟨v, _, rfl⟩ := List.mem_map.mp hx
  exact generateHeader_total (bindRow v field) option (bindRow_length v field h) ho

/-! ## Value binding: helper lemmas -/

theorem generateValue_with_value (attr : Attribute) (x : GoString) :
    generateValue { attr with Value := x }
      = formatValue
          (specReplace attr (specRemove attr (if x = [] then attr.DefaultValue else x)))
          attr := by
  rw [generateValue_eq_specTransform]
  rfl

theorem stringsReplaceAll_nil (old new : GoString) : stringsReplaceAll [] old new = [] := by
  unfold stringsReplaceAll
  by_cases h : old = []
  · rw [if_pos h]
  · rw [if_neg h]
    rfl

theorem specReplace_specRemove_nil (attr : Attribute) :
    specReplace attr (specRemove attr []) = [] := by
  have h1 : specRemove attr [] = [] := by
    unfold specRemove
    split_ifs
    · rfl
    · exact stringsReplaceAll_nil _ _
  rw [h1]
  unfold specReplace
  split_ifs
  · rfl
  · exact stringsReplaceAll_nil _ _

theorem formatValue_nil (attr : Attribute) (h : 0 ≤ attr.Length) :
    formatValue [] attr = some (List.replicate attr.Length.toNat (fillByte attr.Type_)) := by
  have hl : len ([] : GoString) ≤ attr.Length := h
  have hn : (attr.Length - len ([] : GoString)).toNat = attr.Length.toNat := by
    unfold len
    simp
  unfold formatValue fillByte
  rw [ascii_space, ascii_zero]
  by_cases h1 : attr.Type_ = ascii "lps"
  · have hf : ¬ (attr.Type_ = ascii "lpz" ∨ attr.Type_ = ascii "rpz") := by
      rw [h1]; decide
    rw [if_pos h1, if_neg hf, leftPad_short [] 32 attr.Length hl, hn, List.append_nil]
  · by_cases h2 : attr.Type_ = ascii "lpz"
    · rw [if_neg h1, if_pos h2, if_pos (Or.inl h2), leftPad_short [] 48 attr.Length hl, hn,
        List.append_nil]
    · by_cases h3 : attr.Type_ = ascii "rpz"
      · rw [if_neg h1, if_neg h2, if_pos h3, if_pos (Or.inr h3),
          rightPad_short [] 48 attr.Length hl, hn, List.nil_append]
      · have hf : ¬ (attr.Type_ = ascii "lpz" ∨ attr.Type_ = ascii "rpz") := by
          rintro (h | h)
          · exact h2 h
          · exact h3 h
        rw [if_neg h1, if_neg h2, if_neg h3, if_neg hf, rightPad_short [] 32 attr.Length hl,
          hn, List.nil_append]

theorem formatInt_ne_nil (i : Int) : formatInt i ≠ [] := by
  unfold formatInt
  by_cases h : i < 0
  · rw [if_pos h]
    exact List.cons_ne_nil _ _
  · rw [if_neg h]
    exact List.ne_nil_of_length_pos (decimalRounds_length_pos _)

theorem rowGet_absent (v : Row) (n : GoString) (h : ∀ e ∈ v, e.1 ≠ n) :
    rowGet v n = RowValue.nil := by
  induction v with
  | nil => rfl
  | cons e rest ih =>
    obtain ⟨k, x⟩ := e
    have hk : k ≠ n := h (k, x) (List.mem_cons_self _ _)
    unfold rowGet
    rw [if_neg hk]
    exact ih (fun e he => h e (List.mem_cons_of_mem _ he))

theorem generateHeader_no_addChar (field : Option Field) (s : GoString) (m : Int)
    (hs : generateCommon field = some s) (hne : s ≠ []) :
    generateHeader field (some (CmtxOption.mk m [])) = formatMaxLength s m := by
  unfold generateHeader
  rw [hs]
  simp only [if_pos hne]
  cases formatMaxLength s m with
  | none => rfl
  | some r => simp

theorem decimalRounds_length_le (k : Nat) :
    ∀ n : Nat, n < 10 ^ (k + 1) → (decimalRounds (n + 1) n).length ≤ k + 1 := by
  induction k with
  | zero =>
    intro n h
    rw [decimalRounds_unfold, if_pos (by simpa using h)]
    simp
  | succ j ih =>
    intro n h
    rw [decimalRounds_unfold]
    by_cases h10 : n < 10
    · rw [if_pos h10]
      simp
    · rw [if_neg h10]
      have hq : n / 10 < 10 ^ (j + 1) := by
        rw [Nat.div_lt_iff_lt_mul (by decide)]
        rw [pow_succ] at h
        exact h
      have := ih (n / 10) hq
      simp only [List.length_append, List.length_singleton]
      omega

theorem float64Text_small (n : Int) (h1 : -1000000 < n) (h2 : n < 1000000) :
    float64Text n = formatInt n := by
  have hlen : (decimalRounds (n.natAbs + 1) n.natAbs).length ≤ 6 :=
    decimalRounds_length_le 5 n.natAbs (by omega)
  unfold float64Text formatInt
  simp only [if_pos hlen]
  by_cases hneg : n < 0
  · simp only [if_pos hneg, List.singleton_append]
  · simp only [if_neg hneg, List.nil_append]

theorem float64Text_ne_nil (n : Int) : float64Text n ≠ [] := by
  have hd : decimalRounds (n.natAbs + 1) n.natAbs ≠ [] :=
    List.ne_nil_of_length_pos (decimalRounds_length_pos _)
  unfold float64Text
  simp only
  by_cases hlen : (decimalRounds (n.natAbs + 1) n.natAbs).length ≤ 6
  · rw [if_pos hlen]
    simp [hd]
  · rw [if_neg hlen]
    cases stripTrailingZeros (decimalRounds (n.natAbs + 1) n.natAbs) with
    | nil => simp [hd]
    | cons d more => simp

/-! ## Detail rows and Option: the claims -/

/-- C8: `generateDetail(template, rows, option)` is the concatenation, in row
order and without separator, of the per-row section strings; the section string
of a row is what `generateHeader` (the full section assembler, with the max
length enforcement and the trailing `AddCharPerSection` of the Option) returns
on the template re-bound from that row alone, and re-binding from a row erases
whatever an earlier row had bound. A panic in a row is a panic of the whole. -/
theorem generateDetail_per_row (field : Field) (rows : List Row)
    (option : Option CmtxOption) :
    generateDetail (some field) (some rows) option
        = concatSections
            (rows.map (fun v => generateHeader (some (bindRow v field)) option)) ∧
      (∀ v w : Row, bindRow v (bindRow w field) = bindRow v field) ∧
      (∀ (v : Row) (str : GoString) (rest : List Row),
        detailLoop option field str (v :: rest)
          = match generateHeader (some (bindRow v field)) option with
            | none => none
            | some s => detailLoop option (bindRow v field) (str ++ s) rest) :=
  ⟨generateDetail_eq field rows option, fun v w => bindRow_bindRow v w field,
    fun v str rest => detailLoop_cons option field str v rest⟩

/-- C9 (counterexample): a row whose entry for `n` is the number
`float64(100000000)`, rendered on a template field `n` of type `lps` and
`Length` 9. The `%v` text of that number is `1e+08`, not its decimal text
`100000000`: the field is rendered as `    1e+08`, and not as the nine digits
that rendering from the decimal text would give. -/
theorem detail_float_exponent_text :
    float64Text 100000000 = ascii "1e+08" ∧
      formatInt 100000000 = ascii "100000000" ∧
      generateDetail (some [(ascii "n", Attribute.mk 1 (ascii "lps") 9 [] [] [] ([], []))])
          (some [[(ascii "n", RowValue.other (float64Text 100000000))]]) none
        = some (ascii "    1e+08") ∧
      generateDetail (some [(ascii "n", Attribute.mk 1 (ascii "lps") 9 [] [] [] ([], []))])
          (some [[(ascii "n", RowValue.other (float64Text 100000000))]]) none
        ≠ formatValue (ascii "100000000")
            (Attribute.mk 1 (ascii "lps") 9 [] [] [] ([], [])) := by
  decide

/-- C9 (amended): in a detail render of a row `v`, the descriptor of the
template field `n` is re-bound to `bindValue v n attr`. When the row has no
entry for `n` (then `v[n]` is nil), or the entry is nil or the empty string, the
field is rendered from its `DefaultValue`, transformed and width-formatted, and
is `Length` fill bytes when `DefaultValue` is empty. When the entry is a
non-empty string the field is rendered from it. An `int` entry is rendered from
its decimal text, which is never empty (`0` gives `"0"`). An entry of any other
dynamic type is bound to its `%v` text and rendered from it (from
`DefaultValue` if that text is empty); for a whole `float64` that text is never
empty, it is the decimal text below `10^6` in magnitude (`0` gives `"0"`) and
the exponent form otherwise. No row makes the render fail: formatting the
re-bound field panics only for a negative `Length`, whatever the row holds, and
with non-negative lengths and a non-negative `MaxLengthPerSection` the render
returns a string for every sequence of rows. -/
theorem detail_row_binding (field : Field) (v : Row) (n : GoString) (attr : Attribute)
    (option : Option CmtxOption) (hmem : (n, attr) ∈ field) :
    (n, bindValue v n attr) ∈ bindRow v field ∧
      generateDetail (some field) (some [v]) option
        = generateHeader (some (bindRow v field)) option ∧
      ((∀ e ∈ v, e.1 ≠ n) → rowGet v n = RowValue.nil) ∧
      ((rowGet v n = RowValue.nil ∨ rowGet v n = RowValue.str []) →
        generateValue (bindValue v n attr)
            = formatValue (specReplace attr (specRemove attr attr.DefaultValue)) attr ∧
          (attr.DefaultValue = [] → 0 ≤ attr.Length →
            generateValue (bindValue v n attr)
              = some (List.replicate attr.Length.toNat (fillByte attr.Type_)))) ∧
      (∀ s, rowGet v n = RowValue.str s → s ≠ [] →
        generateValue (bindValue v n attr)
          = formatValue (specReplace attr (specRemove attr s)) attr) ∧
      (∀ i, rowGet v n = RowValue.int i →
        formatInt i ≠ [] ∧
          generateValue (bindValue v n attr)
            = formatValue (specReplace attr (specRemove attr (formatInt i))) attr) ∧
      formatInt 0 = ascii "0" ∧
      (∀ t, rowGet v n = RowValue.other t →
        bindValue v n attr = { attr with Value := t } ∧
          (t ≠ [] →
            generateValue (bindValue v n attr)
              = formatValue (specReplace attr (specRemove attr t)) attr) ∧
          (t = [] →
            generateValue (bindValue v n attr)
              = formatValue (specReplace attr (specRemove attr attr.DefaultValue)) attr)) ∧
      (∀ m : Int, float64Text m ≠ [] ∧
        (-1000000 < m → m < 1000000 → float64Text m = formatInt m)) ∧
      float64Text 0 = ascii "0" ∧
      (generateValue (bindValue v n attr) = none ↔ attr.Length < 0) ∧
      ((∀ e ∈ field, 0 ≤ e.2.Length) →
        (∀ o, option = some o → 0 ≤ o.MaxLengthPerSection) →
        ∀ rows : List Row, ∃ r, generateDetail (some field) (some rows) option = some r) := by
  refine ⟨?_, ?_, rowGet_absent v n, ?_, ?_, ?_, by decide, ?_,
    fun m => ⟨float64Text_ne_nil m, float64Text_small m⟩, by decide, ?_, ?_⟩
  · unfold bindRow
    exact List.mem_map.mpr ⟨(n, attr), hmem, rfl⟩
  · rw [generateDetail_eq, List.map_cons, List.map_nil]
    cases hh : generateHeader (some (bindRow v field)) option with
    | none => rfl
    | some s => simp [concatSections]
  · intro hrow
    have hb : bindValue v n attr = { attr with Value := [] } := by
      unfold bindValue
      rcases hrow with h | h
      · rw [h]
        simp
      · rw [h]
        simp
    have hg : generateValue (bindValue v n attr)
        = formatValue (specReplace attr (specRemove attr attr.DefaultValue)) attr := by
      rw [hb, generateValue_with_value, if_pos rfl]
    refine ⟨hg, fun hd hl => ?_⟩
    rw [hg, hd, specReplace_specRemove_nil, formatValue_nil attr hl]
  · intro s hrow hs
    have hb : bindValue v n attr = { attr with Value := s } := by
      unfold bindValue
      rw [hrow]
      simp [hs, sprintV]
    rw [hb, generateValue_with_value, if_neg hs]
  · intro i hrow
    have hb : bindValue v n attr = { attr with Value := formatInt i } := by
      unfold bindValue
      rw [hrow]
      simp [sprintV]
    refine ⟨formatInt_ne_nil i, ?_⟩
    rw [hb, generateValue_with_value, if_neg (formatInt_ne_nil i)]
  · intro t hrow
    have hb : bindValue v n attr = { attr with Value := t } := by
      unfold bindValue
      rw [hrow]
      simp [sprintV]
    refine ⟨hb, fun ht => ?_, fun ht => ?_⟩
    · rw [hb, generateValue_with_value, if_neg ht]
    · rw [hb, generateValue_with_value, if_pos ht]
  · rw [generateValue_eq_none_iff, bindValue_length]
  · intro hl ho rows
    exact generateDetail_total field rows option hl ho

theorem detail_row_binding_witness :
    (ascii "username", Attribute.mk 2 (ascii "lps") 10 [] [] [] ([], [])) ∈
        ([(ascii "name", Attribute.mk 1 (ascii "lps") 10 [] [] [] ([], [])),
          (ascii "username", Attribute.mk 2 (ascii "lps") 10 [] [] [] ([], []))] : Field) ∧
      generateValue (bindValue [(ascii "name", RowValue.str (ascii "John Doe"))]
          (ascii "username") (Attribute.mk 2 (ascii "lps") 10 [] [] [] ([], [])))
        = some (ascii "          ") :=
  ⟨by decide,
    Eq.trans
      (((detail_row_binding
        [(ascii "name", Attribute.mk 1 (ascii "lps") 10 [] [] [] ([], [])),
          (ascii "username", Attribute.mk 2 (ascii "lps") 10 [] [] [] ([], []))]
        [(ascii "name", RowValue.str (ascii "John Doe"))]
        (ascii "username") (Attribute.mk 2 (ascii "lps") 10 [] [] [] ([], [])) none
        (by decide)).2.2.2.1 (Or.inl (by decide))).2 (by decide) (by decide))
      (by decide)⟩

/-- C10: for a header or footer field set whose assembled string `s` is not
empty, and an Option with `MaxLengthPerSection = M` and an empty
`AddCharPerSection`: with `M = 0` the section is `s` unchanged; with `M > 0` the
section has exactly `M` bytes, namely `s` followed by `M - len(s)` spaces when
`len(s) <= M` and the first `M` bytes of `s` when `len(s) > M`. -/
theorem section_maxLength (field : Option Field) (s : GoString) (m : Int)
    (hs : generateCommon field = some s) (hne : s ≠ []) :
    (m = 0 → generateHeader field (some (CmtxOption.mk m [])) = some s) ∧
      (0 < m → len s ≤ m →
        generateHeader field (some (CmtxOption.mk m []))
          = some (s ++ List.replicate (m - len s).toNat 32)) ∧
      (0 < m → m < len s →
        generateHeader field (some (CmtxOption.mk m [])) = some (s.take m.toNat)) ∧
      (0 < m →
        ∃ r, generateHeader field (some (CmtxOption.mk m [])) = some r ∧ len r = m) ∧
      generateFooter field (some (CmtxOption.mk m []))
        = generateHeader field (some (CmtxOption.mk m [])) := by
  rw [generateHeader_no_addChar field s m hs hne]
  refine ⟨fun h0 => ?_, fun hpos hle => ?_, fun hpos hlt => ?_, fun hpos => ?_, ?_⟩
  · unfold formatMaxLength
    rw [if_neg (by omega)]
  · unfold formatMaxLength
    rw [if_pos (by omega), ascii_space]
    exact rightPad_short s 32 m hle
  · unfold formatMaxLength
    rw [if_pos (by omega), ascii_space]
    exact rightPad_long s 32 m (by omega) (by omega)
  · unfold formatMaxLength
    rw [if_pos (by omega), ascii_space]
    exact rightPad_len s 32 m (by omega)
  · unfold generateFooter
    exact generateHeader_no_addChar field s m hs hne

theorem section_maxLength_witness :
    generateCommon (some
        [(ascii "name", Attribute.mk 1 (ascii "lps") 10 (ascii "Company") [] [] ([], []))])
      = some (ascii "   Company") ∧
    generateHeader (some
        [(ascii "name", Attribute.mk 1 (ascii "lps") 10 (ascii "Company") [] [] ([], []))])
        (some (CmtxOption.mk 20 []))
      = some (ascii "   Company          ") :=
  ⟨by decide,
    Eq.trans
      ((section_maxLength
        (some [(ascii "name", Attribute.mk 1 (ascii "lps") 10 (ascii "Company") [] [] ([], []))])
        (ascii "   Company") 20 (by decide) (by decide)).2.1 (by decide) (by decide))
      (by decide)⟩

/-! ## The end-to-end examples of the specification -/

theorem header_example :
    generateHeader (some
        [(ascii "b", Attribute.mk 2 (ascii "rps") 3 (ascii "AB") [] [] ([], [])),
          (ascii "a", Attribute.mk 1 (ascii "lpz") 5 (ascii "1") [] [] ([], []))]) none
      = some (ascii "00001AB ") := by
  decide

theorem detail_example :
    generateDetail (some [(ascii "n", Attribute.mk 1 (ascii "lps") 4 [] [] [] ([], []))])
        (some [[(ascii "n", RowValue.str (ascii "x"))], [(ascii "n", RowValue.str (ascii "yz"))]])
        none
      = some (ascii "   x  yz") := by
  decide

/-! ## Option on detail rows and absent inputs: helper lemmas -/

theorem generateHeader_option (field : Option Field) (s : GoString) (o : CmtxOption)
    (hs : generateCommon field = some s) (hne : s ≠ []) :
    generateHeader field (some o)
      = (formatMaxLength s o.MaxLengthPerSection).map
          (fun t => if o.AddCharPerSection ≠ [] then t ++ o.AddCharPerSection else t) := by
  unfold generateHeader
  rw [hs]
  simp only [if_pos hne]
  cases formatMaxLength s o.MaxLengthPerSection with
  | none => rfl
  | some t =>
    by_cases ha : o.AddCharPerSection ≠ []
    · simp only [if_pos ha, addCharAtTrail, Option.map_some']
    · simp only [if_neg ha, Option.map_some']

theorem formatMaxLength_pos (s : GoString) (m : Int) (hm : 0 < m) :
    ∃ t, formatMaxLength s m = some t ∧ len t = m ∧
      (len s ≤ m → t = s ++ List.replicate (m - len s).toNat 32) ∧
      (m < len s → t = s.take m.toNat) := by
  unfold formatMaxLength
  rw [if_pos (by omega), ascii_space]
  by_cases hle : len s ≤ m
  · refine ⟨_, rightPad_short s 32 m hle, ?_, fun _ => rfl, fun hlt => by omega⟩
    unfold len at hle ⊢
    simp only [List.length_append, List.length_replicate]
    omega
  · refine ⟨_, rightPad_long s 32 m (by omega) (by omega), ?_, fun h => absurd h hle,
      fun _ => rfl⟩
    unfold len at hle ⊢
    rw [List.length_take]
    omega

theorem concatSections_blocks (m : Int) (l : List (Option GoString))
    (h : ∀ x ∈ l, ∃ b, x = some b ∧ len b = m) :
    ∃ r, concatSections l = some r ∧ len r = (l.length : Int) * m := by
  induction l with
  | nil => exact ⟨[], rfl, by simp [len]⟩
  | cons x rest ih =>
    obtain ⟨b, rfl, hb⟩ := h x (List.mem_cons_self _ _)
    obtain ⟨t, ht, hlen⟩ := ih (fun y hy => h y (List.mem_cons_of_mem _ hy))
    refine ⟨b ++ t, by simp only [concatSections, ht], ?_⟩
    unfold len at hb hlen ⊢
    simp only [List.length_append, List.length_cons]
    push_cast
    rw [hlen, hb]
    ring

theorem runTasks_nothing_set (sched : List Task) (h : Heap) :
    runTasks (cmtxRef.mk none none none none none) sched (h, ⟨[], [], []⟩)
      = some (h, ⟨[], [], []⟩) := by
  induction sched with
  | nil => rfl
  | cons t rest ih =>
    cases t <;> simpa [runTasks, runTask, generateHeader, generateFooter, generateCommon,
      generateDetailState, storeField] using ih

/-! ## Option on detail rows and absent inputs: the claims -/

/-- C11 (counterexample): a template with the single field `n` (`lps`, `Length`
4), the two rows `n = "x"` and `n = "yz"`, and `MaxLengthPerSection = 6` with no
`AddCharPerSection`. The detail output is not 6 bytes long: every row is
padded to 6 bytes on its own, and the output has 12 bytes. -/
theorem generateDetail_total_not_maxLength :
    generateDetail (some [(ascii "n", Attribute.mk 1 (ascii "lps") 4 [] [] [] ([], []))])
        (some [[(ascii "n", RowValue.str (ascii "x"))],
          [(ascii "n", RowValue.str (ascii "yz"))]])
        (some (CmtxOption.mk 6 [])) = some (ascii "   x    yz  ") ∧
      ¬ ∃ r, generateDetail
          (some [(ascii "n", Attribute.mk 1 (ascii "lps") 4 [] [] [] ([], []))])
          (some [[(ascii "n", RowValue.str (ascii "x"))],
            [(ascii "n", RowValue.str (ascii "yz"))]])
          (some (CmtxOption.mk 6 [])) = some r ∧ len r = 6 := by
  have h : generateDetail
      (some [(ascii "n", Attribute.mk 1 (ascii "lps") 4 [] [] [] ([], []))])
      (some [[(ascii "n", RowValue.str (ascii "x"))],
        [(ascii "n", RowValue.str (ascii "yz"))]])
      (some (CmtxOption.mk 6 [])) = some (ascii "   x    yz  ") := by decide
  refine ⟨h, ?_⟩
  rintro ⟨r, hr, hlen⟩
  rw [h] at hr
  cases hr
  revert hlen
  decide

/-- C11 (amended): `MaxLengthPerSection = M > 0` applies to every detail row on
its own, just as it applies to the header and to the footer. The detail output
is the concatenation of the per-row sections; a row whose assembled string `s`
is not empty contributes exactly `M` bytes, `s` followed by spaces when
`len(s) <= M` and the first `M` bytes of `s` otherwise; so when every row
assembles to a non-empty string the detail output of `N` rows has exactly
`N * M` bytes (absent `AddCharPerSection`). -/
theorem generateDetail_maxLength_per_row (field : Field) (rows : List Row) (m : Int)
    (hm : 0 < m) :
    generateDetail (some field) (some rows) (some (CmtxOption.mk m []))
        = concatSections (rows.map
            (fun v => generateHeader (some (bindRow v field)) (some (CmtxOption.mk m [])))) ∧
      (∀ v s, generateCommon (some (bindRow v field)) = some s → s ≠ [] →
        ∃ b, generateHeader (some (bindRow v field)) (some (CmtxOption.mk m [])) = some b ∧
          len b = m ∧
          (len s ≤ m → b = s ++ List.replicate (m - len s).toNat 32) ∧
          (m < len s → b = s.take m.toNat)) ∧
      ((∀ v ∈ rows, ∃ s, generateCommon (some (bindRow v field)) = some s ∧ s ≠ []) →
        ∃ r, generateDetail (some field) (some rows) (some (CmtxOption.mk m [])) = some r ∧
          len r = (rows.length : Int) * m) := by
  have hblock : ∀ v s, generateCommon (some (bindRow v field)) = some s → s ≠ [] →
      ∃ b, generateHeader (some (bindRow v field)) (some (CmtxOption.mk m [])) = some b ∧
        len b = m ∧
        (len s ≤ m → b = s ++ List.replicate (m - len s).toNat 32) ∧
        (m < len s → b = s.take m.toNat) := by
    intro v s hs hne
    obtain ⟨t, ht, hlen, h1, h2⟩ := formatMaxLength_pos s m hm
    refine ⟨t, ?_, hlen, h1, h2⟩
    rw [generateHeader_no_addChar _ s m hs hne, ht]
  refine ⟨generateDetail_eq field rows _, hblock, fun hrows => ?_⟩
  rw [generateDetail_eq]
  have := concatSections_blocks m
    (rows.map (fun v => generateHeader (some (bindRow v field)) (some (CmtxOption.mk m []))))
    (by
      intro x hx
      obtain ⟨v, hv, rfl⟩ := List.mem_map.mp hx
      obtain ⟨s, hs, hne⟩ := hrows v hv
      obtain ⟨b, hb, hlen, _⟩ := hblock v s hs hne
      exact ⟨b, hb, hlen⟩)
  rwa [List.length_map] at this

theorem generateDetail_maxLength_per_row_witness :
    (0 : Int) < 6 ∧
      ∃ r, generateDetail
          (some [(ascii "n", Attribute.mk 1 (ascii "lps") 4 [] [] [] ([], []))])
          (some [[(ascii "n", RowValue.str (ascii "x"))],
            [(ascii "n", RowValue.str (ascii "yz"))]])
          (some (CmtxOption.mk 6 [])) = some r ∧
        len r = (([[(ascii "n", RowValue.str (ascii "x"))],
          [(ascii "n", RowValue.str (ascii "yz"))]] : List Row).length : Int) * 6 :=
  ⟨by decide,
    (generateDetail_maxLength_per_row
      [(ascii "n", Attribute.mk 1 (ascii "lps") 4 [] [] [] ([], []))]
      [[(ascii "n", RowValue.str (ascii "x"))], [(ascii "n", RowValue.str (ascii "yz"))]]
      6 (by decide)).2.2
      (by
        intro v hv
        rcases List.mem_cons.mp hv with rfl | hv
        · exact ⟨ascii "   x", by decide, by decide⟩
        · rcases List.mem_cons.mp hv with rfl | hv
          · exact ⟨ascii "  yz", by decide, by decide⟩
          · cases hv)⟩

/-- C12: for a header or footer field set whose assembled string `s` is not
empty and an Option with a non-empty `AddCharPerSection = c`, the section is
`s` after the max length enforcement followed by `c`, appended once and not
counted by the enforcement: with `MaxLengthPerSection = 0` it is `s ++ c`, and
with `M > 0` it is `M` bytes followed by `c`, so it has `M + len(c)` bytes and
ends with `c`. -/
theorem section_addChar (field : Option Field) (s c : GoString) (m : Int)
    (hs : generateCommon field = some s) (hne : s ≠ []) (hc : c ≠ []) :
    generateHeader field (some (CmtxOption.mk m c))
        = (formatMaxLength s m).map (fun t => t ++ c) ∧
      (m = 0 → generateHeader field (some (CmtxOption.mk m c)) = some (s ++ c)) ∧
      (0 < m →
        ∃ t, generateHeader field (some (CmtxOption.mk m []) ) = some t ∧ len t = m ∧
          generateHeader field (some (CmtxOption.mk m c)) = some (t ++ c) ∧
          len (t ++ c) = m + len c ∧ c <:+ t ++ c) ∧
      generateFooter field (some (CmtxOption.mk m c))
        = generateHeader field (some (CmtxOption.mk m c)) := by
  have key : generateHeader field (some (CmtxOption.mk m c))
      = (formatMaxLength s m).map (fun t => t ++ c) := by
    rw [generateHeader_option field s _ hs hne]
    simp only [if_pos hc]
  refine ⟨key, fun h0 => ?_, fun hpos => ?_, rfl⟩
  · rw [key]
    unfold formatMaxLength
    rw [if_neg (by omega)]
    rfl
  · obtain ⟨t, ht, hlen, _⟩ := formatMaxLength_pos s m hpos
    refine ⟨t, ?_, hlen, ?_, ?_, List.suffix_append t c⟩
    · rw [generateHeader_no_addChar field s m hs hne, ht]
    · rw [key, ht]
      rfl
    · unfold len at hlen ⊢
      simp only [List.length_append]
      push_cast
      omega

theorem section_addChar_witness :
    generateHeader (some
        [(ascii "name", Attribute.mk 1 (ascii "lps") 10 (ascii "Company") [] [] ([], []))])
        (some (CmtxOption.mk 0 (ascii "ADDED")))
      = some (ascii "   CompanyADDED") :=
  Eq.trans
    ((section_addChar
      (some [(ascii "name", Attribute.mk 1 (ascii "lps") 10 (ascii "Company") [] [] ([], []))])
      (ascii "   Company") (ascii "ADDED") 0 (by decide) (by decide) (by decide)).2.1 rfl)
    (by decide)

/-- C13: absent inputs give the empty string and never an error.
`generateHeader` and `generateFooter` of a nil field set return `""` for every
Option (the Option is bypassed, whatever its `MaxLengthPerSection` and
`AddCharPerSection`); `generateDetail` returns `""` whenever the field set or
the row sequence is nil, and leaves the template untouched; `Generate` on a
fresh `cmtx` returns `""`, under every schedule of its goroutines. -/
theorem absent_inputs_empty :
    (∀ option, generateHeader none option = some []) ∧
      (∀ option, generateFooter none option = some []) ∧
      (∀ rows option, generateDetail none rows option = some []) ∧
      (∀ field option, generateDetail field none option = some []) ∧
      (∀ field option, generateDetailState field none option = some ([], field)) ∧
      Generate NewCmtx = some [] ∧
      (∀ sched h, GenerateScheduled sched h (cmtxRef.mk none none none none none)
        = some []) := by
  refine ⟨?_, ?_, ?_, ?_, ?_, by decide, ?_⟩
  · intro option
    cases option <;> rfl
  · intro option
    cases option <;> rfl
  · intro rows option
    cases rows <;> rfl
  · intro field option
    cases field <;> rfl
  · intro field option
    cases field <;> rfl
  · intro sched h
    unfold GenerateScheduled
    rw [runTasks_nothing_set]
    rfl

/-! ## Document and failing fast: helper lemmas -/

theorem map_storeField (h : Heap) (p q : Option Nat) (f : Option Field)
    (hd : ∀ a, p = some a → q ≠ some a) : p.map (storeField h q f) = p.map h := by
  cases p with
  | none => rfl
  | some a =>
    cases q with
    | none => rfl
    | some b =>
      cases f with
      | none => rfl
      | some g =>
        have hne : a ≠ b := fun e => hd a rfl (by rw [e])
        simp only [Option.map_some', storeField, Function.update_noteq hne]

theorem schedule_cases (sched : List Task)
    (hs : sched.Perm [Task.header, Task.detail, Task.footer]) :
    sched = [Task.header, Task.detail, Task.footer] ∨
      sched = [Task.header, Task.footer, Task.detail] ∨
      sched = [Task.detail, Task.header, Task.footer] ∨
      sched = [Task.detail, Task.footer, Task.header] ∨
      sched = [Task.footer, Task.header, Task.detail] ∨
      sched = [Task.footer, Task.detail, Task.header] := by
  have hl := hs.length_eq
  match sched, hl, hs with
  | [a, b, c], _, hs =>
    cases a <;> cases b <;> cases c <;>
      first
        | (exfalso; revert hs; decide)
        | simp

theorem leftPad_eq_none_iff (val : GoString) (c : UInt8) (length : Int) :
    leftPad val [c] length = none ↔ length < 0 := by
  constructor
  · intro hn
    by_contra hc
    obtain ⟨r, hr, _⟩ := leftPad_len val c length (by omega)
    rw [hr] at hn
    cases hn
  · exact leftPad_neg val [c] length

theorem rightPad_eq_none_iff (val : GoString) (c : UInt8) (length : Int) :
    rightPad val [c] length = none ↔ length < 0 := by
  constructor
  · intro hn
    by_contra hc
    obtain ⟨r, hr, _⟩ := rightPad_len val c length (by omega)
    rw [hr] at hn
    cases hn
  · exact rightPad_neg val [c] length

theorem formatValue_eq_none_iff (val : GoString) (attr : Attribute) :
    formatValue val attr = none ↔ attr.Length < 0 := by
  constructor
  · intro hn
    by_contra hc
    obtain ⟨r, hr, _⟩ := formatValue_len val attr (by omega)
    rw [hr] at hn
    cases hn
  · exact formatValue_neg val attr

/-! ## Document and failing fast: the claims -/

/-- C14: for a `cmtx` whose detail field set is an object distinct from the
header and from the footer field set (as it is when all three are distinct),
`Generate` returns, under every schedule of its three goroutines,
`generateHeader(header, option)` followed by
`generateDetail(detail, rows, option)` followed by
`generateFooter(footer, option)`, in that order and with nothing in between; and
`generateFooter` is `generateHeader`. A panic in one of the three is a panic of
`Generate`. -/
theorem Generate_header_detail_footer (sched : List Task) (h : Heap) (c : cmtxRef)
    (hs : sched.Perm [Task.header, Task.detail, Task.footer])
    (hhd : ∀ a, c.header = some a → c.detail ≠ some a)
    (hfd : ∀ a, c.footer = some a → c.detail ≠ some a) :
    GenerateScheduled sched h c
        = (match generateHeader (c.header.map h) c.option,
            generateDetail (c.detail.map h) c.detailData c.option,
            generateFooter (c.footer.map h) c.option with
          | some header, some detail, some footer => some (header ++ detail ++ footer)
          | _, _, _ => none) ∧
      GenerateScheduled sched h c = Generate (loadCmtx h c) ∧
      (∀ field option, generateFooter field option = generateHeader field option) := by
  have key : GenerateScheduled sched h c
      = (match generateHeader (c.header.map h) c.option,
          generateDetail (c.detail.map h) c.detailData c.option,
          generateFooter (c.footer.map h) c.option with
        | some header, some detail, some footer => some (header ++ detail ++ footer)
        | _, _, _ => none) := by
    have e1 := fun f => map_storeField h c.header c.detail f hhd
    have e2 := fun f => map_storeField h c.footer c.detail f hfd
    cases hH : generateHeader (c.header.map h) c.option <;>
      cases hF : generateFooter (c.footer.map h) c.option <;>
      rcases hD : generateDetailState (c.detail.map h) c.detailData c.option
        with _ | ⟨s, f⟩ <;>
      rcases schedule_cases sched hs with e | e | e | e | e | e <;> subst e <;>
      simp [GenerateScheduled, runTasks, runTask, generateDetail, hH, hD, hF, e1, e2]
  exact ⟨key, key, fun _ _ => rfl⟩

theorem Generate_header_detail_footer_witness :
    GenerateScheduled [Task.footer, Task.detail, Task.header]
        (fun a =>
          if a = 0 then
            [(ascii "h", Attribute.mk 1 (ascii "lpz") 5 (ascii "1") [] [] ([], []))]
          else if a = 1 then
            [(ascii "n", Attribute.mk 1 (ascii "lps") 4 [] [] [] ([], []))]
          else [(ascii "f", Attribute.mk 1 (ascii "rps") 3 (ascii "AB") [] [] ([], []))])
        (cmtxRef.mk (some 0) (some 2) (some 1)
          (some [[(ascii "n", RowValue.str (ascii "x"))]]) none)
      = some (ascii "00001   xAB ") :=
  Eq.trans
    (Generate_header_detail_footer [Task.footer, Task.detail, Task.header]
      (fun a =>
        if a = 0 then
          [(ascii "h", Attribute.mk 1 (ascii "lpz") 5 (ascii "1") [] [] ([], []))]
        else if a = 1 then
          [(ascii "n", Attribute.mk 1 (ascii "lps") 4 [] [] [] ([], []))]
        else [(ascii "f", Attribute.mk 1 (ascii "rps") 3 (ascii "AB") [] [] ([], []))])
      (cmtxRef.mk (some 0) (some 2) (some 1)
        (some [[(ascii "n", RowValue.str (ascii "x"))]]) none)
      (by decide) (by decide) (by decide)).1
    (by decide)

/-- C15: formatting a field fails fast exactly when its `Length` is negative.
For every input string and every fill byte, `leftPad` and `rightPad` panic
(slice bounds out of range) when `length < 0`, whatever the pad string is, and
return a string when `length >= 0`; hence `formatValue`, for every padding
type, and `generateValue` panic if and only if `Length < 0`. With
`Length >= 0` the final slice is in bounds and the result has `Length` bytes,
the empty string for `Length = 0`. -/
theorem format_fails_iff_negative :
    (∀ (val pad : GoString) (length : Int), length < 0 →
        leftPad val pad length = none ∧ rightPad val pad length = none) ∧
      (∀ (val : GoString) (c : UInt8) (length : Int),
        leftPad val [c] length = none ↔ length < 0) ∧
      (∀ (val : GoString) (c : UInt8) (length : Int),
        rightPad val [c] length = none ↔ length < 0) ∧
      (∀ (val : GoString) (attr : Attribute),
        formatValue val attr = none ↔ attr.Length < 0) ∧
      (∀ attr : Attribute, generateValue attr = none ↔ attr.Length < 0) ∧
      (∀ (val : GoString) (attr : Attribute), 0 ≤ attr.Length →
        ∃ r, formatValue val attr = some r ∧ len r = attr.Length) ∧
      (∀ (val : GoString) (attr : Attribute), attr.Length = 0 →
        formatValue val attr = some []) := by
  refine ⟨fun val pad length hneg => ⟨leftPad_neg val pad length hneg,
      rightPad_neg val pad length hneg⟩, leftPad_eq_none_iff, rightPad_eq_none_iff,
    formatValue_eq_none_iff, generateValue_eq_none_iff, formatValue_len, ?_⟩
  intro val attr h0
  obtain ⟨r, hr, hlen⟩ := formatValue_len val attr (by omega)
  rw [hr]
  have : r.length = 0 := by unfold len at hlen; omega
  rw [List.length_eq_zero.mp this]

/-- With the header and the detail pointer naming one object the result of
`Generate` depends on the schedule: the hypothesis of distinct objects cannot be
dropped. -/
theorem Generate_aliasing_example :
    GenerateScheduled [Task.header, Task.detail, Task.footer]
        (fun _ => [(ascii "n", Attribute.mk 1 (ascii "lps") 4 (ascii "H") [] [] ([], []))])
        (cmtxRef.mk (some 0) none (some 0) (some [[(ascii "n", RowValue.str (ascii "x"))]]) none)
      = some (ascii "   H   x") ∧
    GenerateScheduled [Task.detail, Task.header, Task.footer]
        (fun _ => [(ascii "n", Attribute.mk 1 (ascii "lps") 4 (ascii "H") [] [] ([], []))])
        (cmtxRef.mk (some 0) none (some 0) (some [[(ascii "n", RowValue.str (ascii "x"))]]) none)
      = some (ascii "   x   x") := by
  decide

/-! ## Value attribute, string order and determinism: helper lemmas -/

theorem bindValue_eraseValue (v : Row) (e : GoString × Attribute) :
    bindValue v (eraseValue e).1 (eraseValue e).2 = bindValue v e.1 e.2 := by
  unfold bindValue eraseValue
  by_cases hw : rowGet v e.1 ≠ RowValue.str [] ∧ rowGet v e.1 ≠ RowValue.nil
  · simp only [if_pos hw]
  · simp only [if_neg hw]

theorem bindRow_eraseValue (v : Row) (f : Field) :
    bindRow v (f.map eraseValue) = bindRow v f := by
  unfold bindRow
  rw [List.map_map]
  apply List.map_congr_left
  intro e _
  simp only [Function.comp, bindValue_eraseValue]
  rfl

theorem generateHeader_perm (p q : Field) (option : Option CmtxOption) (h : p.Perm q) :
    generateHeader (some p) option = generateHeader (some q) option := by
  unfold generateHeader
  rw [generateCommon_perm p q h]

theorem collectOrders_eq_some (f : Field) (keys : List GoString)
    (h : collectOrders f = some keys) :
    keys = f.map keyOf ∧ ∀ e ∈ f, generateValue e.2 ≠ none := by
  by_cases hall : ∀ e ∈ f, generateValue e.2 ≠ none
  · rw [collectOrders_some f hall] at h
    cases h
    exact ⟨rfl, hall⟩
  · have hex : ∃ e ∈ f, generateValue e.2 = none := by
      by_contra hc
      exact hall (fun e he hn => hc ⟨e, he, hn⟩)
    rw [collectOrders_none f hex] at h
    cases h

theorem keyOf_ten_lt_two (a b : GoString × Attribute) (ha : a.2.Order = 10)
    (hb : b.2.Order = 2) : strLess (keyOf a) (keyOf b) = true := by
  have h10 : formatInt 10 = [49, 48] := by decide
  have h2 : formatInt 2 = [50] := by decide
  unfold keyOf
  rw [ha, hb, h10, h2]
  simp only [List.cons_append, List.nil_append, strLess, Bool.or_eq_true, decide_eq_true_eq]
  left
  decide

/-! ## Value attribute, string order and determinism: the claims -/

/-- C16: the `Value` attribute has no effect on the detail section. Two
templates that differ only in the `Value` attributes of their fields, that is,
whose entries with `Value` blanked are the same (here: up to the order in which
the two maps are enumerated), give the same `generateDetail` string for every
row sequence, nil or not, and every Option. -/
theorem generateDetail_ignores_value (f g : Field)
    (h : (f.map eraseValue).Perm (g.map eraseValue)) :
    ∀ (rows : Option (List Row)) (option : Option CmtxOption),
      generateDetail (some f) rows option = generateDetail (some g) rows option := by
  intro rows option
  cases rows with
  | none => rfl
  | some rs =>
    rw [generateDetail_eq, generateDetail_eq]
    congr 1
    apply List.map_congr_left
    intro v _
    rw [← bindRow_eraseValue v f, ← bindRow_eraseValue v g]
    apply generateHeader_perm
    unfold bindRow
    exact h.map _

theorem generateDetail_ignores_value_witness :
    generateDetail
        (some [(ascii "n", Attribute.mk 1 (ascii "lps") 4 (ascii "H") [] [] ([], []))])
        (some [[(ascii "n", RowValue.str (ascii "x"))], []]) none
      = generateDetail
        (some [(ascii "n", Attribute.mk 1 (ascii "lps") 4 (ascii "other") [] [] ([], []))])
        (some [[(ascii "n", RowValue.str (ascii "x"))], []]) none :=
  generateDetail_ignores_value
    [(ascii "n", Attribute.mk 1 (ascii "lps") 4 (ascii "H") [] [] ([], []))]
    [(ascii "n", Attribute.mk 1 (ascii "lps") 4 (ascii "other") [] [] ([], []))]
    (by decide) _ _

/-- C17: order values are compared as strings. In every field set that holds a
field of order 10 and a field of order 2, whatever the names and values are, the
sort key of the order-10 field is smaller than the key of the order-2 field, it
stands before it in the sorted keys that the second loop of `generateCommon`
runs through, and never after it: the order-10 field is emitted first. -/
theorem order_ten_before_two (f : Field) (a b : GoString × Attribute)
    (keys : List GoString) (ha : a ∈ f) (hb : b ∈ f)
    (hao : a.2.Order = 10) (hbo : b.2.Order = 2) (hk : collectOrders f = some keys) :
    strLess (keyOf a) (keyOf b) = true ∧
      List.Sublist [keyOf a, keyOf b] (sortStrings keys) ∧
      ¬ List.Sublist [keyOf b, keyOf a] (sortStrings keys) ∧
      generateCommon (some f) = joinOrders [] (sortStrings keys) := by
  obtain ⟨hkeys, hall⟩ := collectOrders_eq_some f keys hk
  have hlt : strLess (keyOf a) (keyOf b) = true := keyOf_ten_lt_two a b hao hbo
  have hab : a ≠ b := by
    intro e
    rw [e, hbo] at hao
    exact absurd hao (by decide)
  refine ⟨hlt, ?_, ?_, ?_⟩
  · unfold sortStrings
    apply List.pair_sublist_insertionSort' (strLe_of_strLess _ _ hlt)
    rw [hkeys]
    have hsub : List.Subperm [a, b] f := by
      apply List.subperm_of_subset
      · simp [hab]
      · intro x hx
        rcases List.mem_cons.mp hx with rfl | hx
        · exact ha
        · rcases List.mem_cons.mp hx with rfl | hx
          · exact hb
          · cases hx
    obtain ⟨l, hl, hsl⟩ := hsub
    exact ⟨l.map keyOf, hl.map keyOf, hsl.map keyOf⟩
  · intro hsub
    have hsorted : (sortStrings keys).Pairwise strLe := List.sorted_insertionSort strLe keys
    have hp := hsorted.sublist hsub
    have hle : strLe (keyOf b) (keyOf a) := by
      simpa using hp
    unfold strLe at hle
    rw [hlt] at hle
    cases hle
  · simp only [generateCommon, hk]

theorem order_ten_before_two_witness :
    List.Sublist
      [keyOf (ascii "j", Attribute.mk 10 (ascii "rps") 3 (ascii "ten") [] [] ([], [])),
        keyOf (ascii "b", Attribute.mk 2 (ascii "rps") 3 (ascii "two") [] [] ([], []))]
      (sortStrings [ascii "2b" ++ orderSep ++ ascii "two",
        ascii "10j" ++ orderSep ++ ascii "ten"]) :=
  (order_ten_before_two
    [(ascii "b", Attribute.mk 2 (ascii "rps") 3 (ascii "two") [] [] ([], [])),
      (ascii "j", Attribute.mk 10 (ascii "rps") 3 (ascii "ten") [] [] ([], []))]
    (ascii "j", Attribute.mk 10 (ascii "rps") 3 (ascii "ten") [] [] ([], []))
    (ascii "b", Attribute.mk 2 (ascii "rps") 3 (ascii "two") [] [] ([], []))
    [ascii "2b" ++ orderSep ++ ascii "two", ascii "10j" ++ orderSep ++ ascii "ten"]
    (by decide) (by decide) (by decide) (by decide) (by decide)).2.1

/-- C18: section assembly is deterministic. For every field set
`generateCommon` returns the same result (the same string, or the same panic)
for every order in which the entries of the map are enumerated, and so does
`generateHeader`; this includes entries whose sort keys start alike, such as
order 1 with name `2x` and order 12 with name `x`. -/
theorem generateCommon_deterministic (p q : Field) (h : p.Perm q) :
    generateCommon (some p) = generateCommon (some q) ∧
      (∀ option, generateHeader (some p) option = generateHeader (some q) option) :=
  ⟨generateCommon_perm p q h, fun option => generateHeader_perm p q option h⟩

theorem generateCommon_deterministic_witness :
    generateCommon (some
        [(ascii "2x", Attribute.mk 1 (ascii "rps") 1 (ascii "B") [] [] ([], [])),
          (ascii "x", Attribute.mk 12 (ascii "rps") 1 (ascii "A") [] [] ([], []))])
      = generateCommon (some
        [(ascii "x", Attribute.mk 12 (ascii "rps") 1 (ascii "A") [] [] ([], [])),
          (ascii "2x", Attribute.mk 1 (ascii "rps") 1 (ascii "B") [] [] ([], []))]) :=
  (generateCommon_deterministic
    [(ascii "2x", Attribute.mk 1 (ascii "rps") 1 (ascii "B") [] [] ([], [])),
      (ascii "x", Attribute.mk 12 (ascii "rps") 1 (ascii "A") [] [] ([], []))]
    [(ascii "x", Attribute.mk 12 (ascii "rps") 1 (ascii "A") [] [] ([], [])),
      (ascii "2x", Attribute.mk 1 (ascii "rps") 1 (ascii "B") [] [] ([], []))]
    (by decide)).1

/-! ## Frame of a detail render and removal: helper lemmas -/

theorem foldl_bindRow (rows : List Row) :
    ∀ field : Field,
      rows.foldl (fun f v => bindRow v f) field
        = match rows.getLast? with
          | none => field
          | some v => bindRow v field := by
  induction rows with
  | nil => intro field; rfl
  | cons v rest ih =>
    intro field
    rw [List.foldl_cons, ih]
    cases rest with
    | nil => rfl
    | cons w more =>
      rw [List.getLast?_cons_cons]
      cases hl : List.getLast? (w :: more) with
      | none => exact absurd (List.getLast?_eq_none_iff.mp hl) (List.cons_ne_nil w more)
      | some u => exact bindRow_bindRow u v field

theorem bindValue_eq (v : Row) (n : GoString) (attr : Attribute) :
    bindValue v n attr
      = { attr with
          Value :=
            if rowGet v n = RowValue.nil ∨ rowGet v n = RowValue.str [] then []
            else sprintV (rowGet v n) } := by
  unfold bindValue
  by_cases h1 : rowGet v n = RowValue.nil
  · simp [h1]
  · by_cases h2 : rowGet v n = RowValue.str []
    · simp [h2]
    · simp [h1, h2]

theorem generateDetailState_after (field : Field) (rows : List Row)
    (option : Option CmtxOption) (str : GoString) (after : Option Field)
    (h : generateDetailState (some field) (some rows) option = some (str, after)) :
    after = some (rows.foldl (fun f v => bindRow v f) field) := by
  simp only [generateDetailState, detailLoop_eq] at h
  cases hc : concatSections
      (rows.map (fun v => generateHeader (some (bindRow v field)) option)) with
  | none =>
    rw [hc] at h
    simp at h
  | some t =>
    rw [hc] at h
    simp only [Option.map_some', Option.some.injEq, Prod.mk.injEq] at h
    exact h.2.symm

theorem stringsIndex_some_occurs (r : GoString) :
    ∀ (s : GoString) (j : Nat), stringsIndex s r = some j → r <:+: s := by
  intro s
  induction s with
  | nil =>
    intro j h
    unfold stringsIndex at h
    by_cases hp : r.isPrefixOf [] = true
    · exact (List.isPrefixOf_iff_prefix.mp hp).isInfix
    · rw [if_neg hp] at h
      cases h
  | cons x rest ih =>
    intro j h
    unfold stringsIndex at h
    by_cases hp : r.isPrefixOf (x :: rest) = true
    · exact (List.isPrefixOf_iff_prefix.mp hp).isInfix
    · rw [if_neg hp] at h
      cases hi : stringsIndex rest r with
      | none =>
        simp only [hi] at h
        cases h
      | some i => exact (ih i hi).trans (List.suffix_cons x rest).isInfix

theorem replaceRounds_of_no_index (old new s : GoString) (fuel : Nat)
    (h : stringsIndex s old = none) : replaceRounds old new fuel s = s := by
  cases fuel with
  | zero => rfl
  | succ k => simp only [replaceRounds, h]

theorem replaceRounds_join_split (old : GoString) (fuel : Nat) :
    ∀ s : GoString, replaceRounds old [] fuel s = (splitRounds old fuel s).flatten := by
  induction fuel with
  | zero => intro s; simp [replaceRounds, splitRounds]
  | succ k ih =>
    intro s
    simp only [replaceRounds, splitRounds]
    cases stringsIndex s old with
    | none => simp
    | some j => simp [ih]

theorem stringsIndex_byte_cons (c x : UInt8) (s : GoString) :
    stringsIndex (x :: s) [c]
      = if c = x then some 0
        else match stringsIndex s [c] with
          | none => none
          | some i => some (i + 1) := by
  conv_lhs => unfold stringsIndex
  simp [List.isPrefixOf]

theorem stringsIndex_byte_none (c : UInt8) :
    ∀ s : GoString, stringsIndex s [c] = none → c ∉ s := by
  intro s
  induction s with
  | nil => intro _; simp
  | cons x rest ih =>
    intro h
    rw [stringsIndex_byte_cons] at h
    by_cases hx : c = x
    · rw [if_pos hx] at h
      cases h
    · rw [if_neg hx] at h
      cases hi : stringsIndex rest [c] with
      | none =>
        intro hm
        rcases List.mem_cons.mp hm with e | hm
        · exact hx e
        · exact ih hi hm
      | some i =>
        rw [hi] at h
        cases h

theorem stringsIndex_byte_some (c : UInt8) :
    ∀ (s : GoString) (j : Nat), stringsIndex s [c] = some j → c ∉ s.take j := by
  intro s
  induction s with
  | nil => intro j _; simp
  | cons x rest ih =>
    intro j h
    rw [stringsIndex_byte_cons] at h
    by_cases hx : c = x
    · rw [if_pos hx] at h
      cases h
      simp
    · rw [if_neg hx] at h
      cases hi : stringsIndex rest [c] with
      | none =>
        rw [hi] at h
        cases h
      | some i =>
        rw [hi] at h
        cases h
        intro hm
        rw [List.take_succ_cons] at hm
        rcases List.mem_cons.mp hm with e | hm
        · exact hx e
        · exact ih i hi hm

theorem replaceRounds_byte_free (c : UInt8) (fuel : Nat) :
    ∀ s : GoString, s.length ≤ fuel → c ∉ replaceRounds [c] [] fuel s := by
  induction fuel with
  | zero =>
    intro s hs
    have he : s = [] := List.length_eq_zero.mp (by omega)
    subst he
    simp [replaceRounds]
  | succ k ih =>
    intro s hs
    simp only [replaceRounds]
    cases hi : stringsIndex s [c] with
    | none => exact stringsIndex_byte_none c s hi
    | some j =>
      have hd : (s.drop (j + [c].length)).length ≤ k := by
        rw [List.length_drop, List.length_singleton]
        omega
      simp only [List.append_nil, List.mem_append, not_or]
      exact ⟨stringsIndex_byte_some c s j hi, ih _ hd⟩

/-! ## Frame of a detail render and removal: the claims -/

/-- C19: a detail render mutates only the `Value` attribute of the template's
descriptors. Whenever `generateDetail` returns a string on a template and a
non-empty row sequence, the template then holds the same names in the same
places and every descriptor keeps its `Order`, `Type`, `Length`,
`DefaultValue`, `RemoveAllChars` and `ReplaceAllChars`; its `Value` is the
binding taken from the last row: the text of the row's entry, or `""` when the
entry is absent, nil or the empty string. With an empty or a nil row sequence
the template is left as it was. The rows are only read (`v[n]`) and never
written. The call returns whenever the lengths and `MaxLengthPerSection` are
not negative. -/
theorem generateDetail_frame (field : Field) (rows : List Row)
    (option : Option CmtxOption) :
    generateDetailState (some field) (some rows) option
        = (generateDetail (some field) (some rows) option).map (fun str =>
            (str, some
              (match rows.getLast? with
              | none => field
              | some v => field.map (fun e =>
                  (e.1, { e.2 with
                    Value :=
                      if rowGet v e.1 = RowValue.nil ∨ rowGet v e.1 = RowValue.str [] then []
                      else sprintV (rowGet v e.1) }))))) ∧
      (∀ v : Row, (field.map (fun e =>
          (e.1, { e.2 with
            Value :=
              if rowGet v e.1 = RowValue.nil ∨ rowGet v e.1 = RowValue.str [] then []
              else sprintV (rowGet v e.1) }))).map eraseValue = field.map eraseValue) ∧
      (∀ option, generateDetailState (some field) (some []) option = some ([], some field)) ∧
      (∀ f o, generateDetailState f none o = some ([], f)) ∧
      ((∀ e ∈ field, 0 ≤ e.2.Length) →
        (∀ o, option = some o → 0 ≤ o.MaxLengthPerSection) →
        ∃ r, generateDetailState (some field) (some rows) option = some r) := by
  have hbind : ∀ v, bindRow v field = field.map (fun e =>
      (e.1, { e.2 with
        Value :=
          if rowGet v e.1 = RowValue.nil ∨ rowGet v e.1 = RowValue.str [] then []
          else sprintV (rowGet v e.1) })) := by
    intro v
    unfold bindRow
    apply List.map_congr_left
    intro e _
    rw [bindValue_eq]
  have hstate : generateDetailState (some field) (some rows) option
      = (generateDetail (some field) (some rows) option).map (fun str =>
          (str, some
            (match rows.getLast? with
            | none => field
            | some v => field.map (fun e =>
                (e.1, { e.2 with
                  Value :=
                    if rowGet v e.1 = RowValue.nil ∨ rowGet v e.1 = RowValue.str [] then []
                    else sprintV (rowGet v e.1) }))))) := by
    cases hg : generateDetailState (some field) (some rows) option with
    | none => simp only [generateDetail, hg, Option.map_none']
    | some r =>
      obtain ⟨str, after⟩ := r
      have ha := generateDetailState_after field rows option str after hg
      rw [foldl_bindRow] at ha
      simp only [generateDetail, hg, Option.map_some', ha]
      cases rows.getLast? with
      | none => rfl
      | some v => simp only [hbind v]
  refine ⟨hstate, ?_, fun _ => rfl, ?_, ?_⟩
  · intro v
    rw [List.map_map]
    apply List.map_congr_left
    intro e _
    rfl
  · intro f o
    cases f <;> rfl
  · intro hl ho
    obtain ⟨r, hr⟩ := generateDetail_total field rows option hl ho
    rw [hstate, hr]
    exact ⟨_, rfl⟩

theorem generateDetail_frame_witness :
    generateDetailState
        (some [(ascii "a", Attribute.mk 1 (ascii "lps") 4 (ascii "old") [] [] ([], [])),
          (ascii "b", Attribute.mk 2 (ascii "rpz") 3 (ascii "old") (ascii "d") [] ([], []))])
        (some [[(ascii "a", RowValue.str (ascii "x")), (ascii "b", RowValue.int 7)],
          [(ascii "a", RowValue.int 0)]]) none
      = some (ascii "   x700   0d00",
          some [(ascii "a", Attribute.mk 1 (ascii "lps") 4 (ascii "0") [] [] ([], [])),
            (ascii "b", Attribute.mk 2 (ascii "rpz") 3 [] (ascii "d") [] ([], []))]) :=
  Eq.trans
    (generateDetail_frame
      [(ascii "a", Attribute.mk 1 (ascii "lps") 4 (ascii "old") [] [] ([], [])),
        (ascii "b", Attribute.mk 2 (ascii "rpz") 3 (ascii "old") (ascii "d") [] ([], []))]
      [[(ascii "a", RowValue.str (ascii "x")), (ascii "b", RowValue.int 7)],
        [(ascii "a", RowValue.int 0)]]
      none).1
    (by decide)

/-- C20 (counterexample): removing `ab` from `aabb` deletes the one occurrence
that a left-to-right scan finds and leaves `ab`: the result of the removal step
does contain an occurrence of `RemoveAllChars`. -/
theorem removeAllChars_leaves_occurrence :
    ascii "ab" ≠ [] ∧
      removeAllChars (ascii "aabb") (ascii "ab") = ascii "ab" ∧
      ascii "ab" <:+: removeAllChars (ascii "aabb") (ascii "ab") := by
  have e : removeAllChars (ascii "aabb") (ascii "ab") = ascii "ab" := by decide
  exact ⟨by decide, e, e ▸ List.infix_refl _⟩

/-- C20 (amended): for every value and every non-empty `RemoveAllChars` string
`r`, `removeAllChars(value, r)` deletes the non-overlapping occurrences of `r`
that one left-to-right scan of `value` finds: it is the concatenation of the
pieces of `strings.Split(value, r)`. It equals `value` when `value` contains no
occurrence of `r`, and when `r` is a single byte the result contains no
occurrence of `r`. -/
theorem removeAllChars_single_pass (value r : GoString) (hr : r ≠ []) :
    removeAllChars value r = (stringsSplit value r).flatten ∧
      (¬ r <:+: value → removeAllChars value r = value) ∧
      (∀ c, r = [c] → c ∉ removeAllChars value r ∧ ¬ r <:+: removeAllChars value r) := by
  have hdef : removeAllChars value r = replaceRounds r [] value.length value := by
    unfold removeAllChars stringsReplaceAll
    rw [if_neg hr]
  refine ⟨?_, ?_, ?_⟩
  · rw [hdef, replaceRounds_join_split]
    rfl
  · intro hno
    rw [hdef]
    apply replaceRounds_of_no_index
    cases hi : stringsIndex value r with
    | none => rfl
    | some j => exact absurd (stringsIndex_some_occurs r value j hi) hno
  · intro c hc
    subst hc
    have hfree : c ∉ removeAllChars value [c] := by
      rw [hdef]
      exact replaceRounds_byte_free c value.length value (le_refl _)
    refine ⟨hfree, fun hin => hfree ?_⟩
    exact hin.subset (List.mem_singleton_self c)

theorem removeAllChars_single_pass_witness :
    ascii "." ≠ [] ∧
      removeAllChars (ascii "1.000.000.000") (ascii ".") = ascii "1000000000" ∧
      ¬ ascii "." <:+: removeAllChars (ascii "1.000.000.000") (ascii ".") :=
  ⟨by decide, by decide,
    ((removeAllChars_single_pass (ascii "1.000.000.000") (ascii ".") (by decide)).2.2
      46 (by decide)).2⟩

/-! ## The separator token: helper lemmas -/

theorem orderSep_bytes :
    orderSep = [32, 95, 95, 123, 123, 91, 91, 40, 40, 48, 82, 68, 51, 82, 95, 53, 51, 80,
      41, 41, 93, 93, 125, 125, 95, 95, 32] := by
  decide

theorem brace_mem_orderSep : (123 : UInt8) ∈ orderSep := by decide

theorem digit_ne_brace (d : Nat) (h : d < 10) : UInt8.ofNat (48 + d) ≠ 123 := by
  intro e
  have h1 := congrArg UInt8.toNat e
  rw [digit_toNat d h] at h1
  have h2 : (123 : UInt8).toNat = 123 := by decide
  omega

theorem decimalRounds_no_brace (fuel : Nat) :
    ∀ n : Nat, (123 : UInt8) ∉ decimalRounds fuel n := by
  induction fuel with
  | zero => intro n; simp [decimalRounds]
  | succ k ih =>
    intro n
    unfold decimalRounds
    by_cases h : n < 10
    · rw [if_pos h]
      intro hm
      exact digit_ne_brace n h (List.mem_singleton.mp hm).symm
    · rw [if_neg h]
      intro hm
      rcases List.mem_append.mp hm with hm | hm
      · exact ih _ hm
      · exact digit_ne_brace (n % 10) (by omega) (List.mem_singleton.mp hm).symm

theorem formatInt_no_brace (i : Int) : (123 : UInt8) ∉ formatInt i := by
  unfold formatInt
  by_cases h : i < 0
  · rw [if_pos h]
    intro hm
    rcases List.mem_cons.mp hm with e | hm
    · exact absurd e (by decide)
    · exact decimalRounds_no_brace _ _ hm
  · rw [if_neg h]
    exact decimalRounds_no_brace _ _

theorem stringsIndex_no_brace (v : GoString) (h : (123 : UInt8) ∉ v) :
    stringsIndex v orderSep = none := by
  cases hi : stringsIndex v orderSep with
  | none => rfl
  | some j =>
    exact absurd ((stringsIndex_some_occurs orderSep v j hi).subset brace_mem_orderSep) h

theorem orderSep_not_prefix (x : UInt8) (a v : GoString) (h : (123 : UInt8) ∉ x :: a) :
    ¬ orderSep <+: x :: a ++ (orderSep ++ v) := by
  rintro ⟨t, ht⟩
  have h3 := congrArg (fun l => l[3]?) ht
  rw [orderSep_bytes] at h3
  simp only [List.cons_append, List.getElem?_cons_succ, List.getElem?_cons_zero] at h3
  cases a with
  | nil => simp at h3
  | cons y a1 =>
    cases a1 with
    | nil => simp at h3
    | cons z a2 =>
      cases a2 with
      | nil => simp at h3
      | cons w a3 =>
        simp only [List.cons_append, List.getElem?_cons_succ, List.getElem?_cons_zero,
          Option.some.injEq] at h3
        apply h
        rw [h3]
        simp

theorem stringsIndex_key (v : GoString) :
    ∀ a : GoString, (123 : UInt8) ∉ a →
      stringsIndex (a ++ (orderSep ++ v)) orderSep = some a.length := by
  intro a
  induction a with
  | nil =>
    intro _
    have hp : orderSep.isPrefixOf ([] ++ (orderSep ++ v)) = true := by
      rw [List.nil_append, List.isPrefixOf_iff_prefix]
      exact List.prefix_append orderSep v
    unfold stringsIndex
    rw [if_pos hp]
    rfl
  | cons x rest ih =>
    intro h
    have hrest : (123 : UInt8) ∉ rest := fun hm => h (List.mem_cons_of_mem _ hm)
    have hp : ¬ orderSep.isPrefixOf (x :: rest ++ (orderSep ++ v)) = true := by
      rw [List.isPrefixOf_iff_prefix]
      exact orderSep_not_prefix x rest v h
    unfold stringsIndex
    rw [if_neg hp]
    simp only [List.cons_append, ih hrest, List.length_cons]

theorem stringsSplit_key (a v : GoString) (ha : (123 : UInt8) ∉ a)
    (hv : (123 : UInt8) ∉ v) :
    stringsSplit (a ++ (orderSep ++ v)) orderSep = [a, v] := by
  have hlen : (a ++ (orderSep ++ v)).length = (a.length + v.length + 25) + 1 + 1 := by
    have h27 : orderSep.length = 27 := by decide
    simp only [List.length_append, h27]
    omega
  unfold stringsSplit
  rw [hlen]
  simp only [splitRounds, stringsIndex_key v a ha, List.take_left', List.drop_append,
    List.drop_left', stringsIndex_no_brace v hv]

theorem keyOf_split (e : GoString × Attribute) :
    keyOf e = (formatInt e.2.Order ++ e.1) ++ (orderSep ++ valueOf e) := by
  unfold keyOf valueOf
  rw [List.append_assoc (formatInt e.2.Order ++ e.1)]

theorem stringsSplit_keyOf (e : GoString × Attribute) (hn : (123 : UInt8) ∉ e.1)
    (hv : (123 : UInt8) ∉ valueOf e) :
    stringsSplit (keyOf e) orderSep = [formatInt e.2.Order ++ e.1, valueOf e] := by
  rw [keyOf_split]
  apply stringsSplit_key _ _ _ hv
  intro hm
  rcases List.mem_append.mp hm with hm | hm
  · exact formatInt_no_brace _ hm
  · exact hn hm

theorem joinOrders_values (l : Field)
    (h : ∀ e ∈ l, (123 : UInt8) ∉ e.1 ∧ (123 : UInt8) ∉ valueOf e) :
    ∀ str : GoString,
      joinOrders str (l.map keyOf) = some (str ++ (l.map valueOf).flatten) := by
  induction l with
  | nil => intro str; simp [joinOrders]
  | cons e rest ih =>
    intro str
    obtain ⟨hn, hv⟩ := h e (List.mem_cons_self _ _)
    have hrest := ih (fun x hx => h x (List.mem_cons_of_mem _ hx))
    simp only [List.map_cons, joinOrders, stringsSplit_keyOf e hn hv,
      List.getElem?_cons_succ, List.getElem?_cons_zero, hrest, List.flatten_cons,
      List.append_assoc]

theorem sortStrings_map_keyOf (f : Field) :
    sortStrings (f.map keyOf) = (List.insertionSort keyLe f).map keyOf := by
  unfold sortStrings
  exact (List.map_insertionSort (r := keyLe) (s := strLe) keyOf f
    (fun _ _ _ _ => Iff.rfl)).symm

theorem generateValue_some_len (attr : Attribute) (v : GoString)
    (h : generateValue attr = some v) : len v = attr.Length := by
  have hnn : 0 ≤ attr.Length := by
    by_contra hc
    rw [(generateValue_eq_none_iff attr).mpr (by omega)] at h
    cases h
  rw [generateValue_eq_specTransform] at h
  obtain ⟨r, hr, hlen⟩ := formatValue_len (specTransform attr) attr hnn
  rw [hr] at h
  cases h
  exact hlen

theorem valueOf_len (e : GoString × Attribute) (h : generateValue e.2 ≠ none) :
    len (valueOf e) = e.2.Length := by
  obtain ⟨v, hv⟩ := Option.ne_none_iff_exists'.mp h
  unfold valueOf
  rw [hv]
  exact generateValue_some_len e.2 v hv

theorem len_flatten_values (l : Field) (h : ∀ e ∈ l, generateValue e.2 ≠ none) :
    len ((l.map valueOf).flatten) = (l.map (fun e => e.2.Length)).sum := by
  induction l with
  | nil => rfl
  | cons e rest ih =>
    have h1 := valueOf_len e (h e (List.mem_cons_self _ _))
    have h2 := ih (fun x hx => h x (List.mem_cons_of_mem _ hx))
    unfold len at h1 h2 ⊢
    simp only [List.map_cons, List.flatten_cons, List.length_append, List.sum_cons]
    push_cast
    rw [h1, h2]

theorem stringsSplit_second_between (key : GoString) (i : Nat)
    (h : stringsIndex key orderSep = some i) :
    (stringsSplit key orderSep)[1]?
      = some
        (match stringsIndex (key.drop (i + orderSep.length)) orderSep with
        | none => key.drop (i + orderSep.length)
        | some j => (key.drop (i + orderSep.length)).take j) := by
  have hl : orderSep.length ≤ key.length := (stringsIndex_some_occurs orderSep key i h).length_le
  have h27 : orderSep.length = 27 := by decide
  have hlen : key.length = (key.length - 2) + 1 + 1 := by omega
  unfold stringsSplit
  rw [hlen]
  simp only [splitRounds, h]
  cases stringsIndex (key.drop (i + orderSep.length)) orderSep with
  | none => simp only [List.getElem?_cons_succ, List.getElem?_cons_zero]
  | some j => simp only [List.getElem?_cons_succ, List.getElem?_cons_zero]

theorem stringsIndex_some_bound (r : GoString) :
    ∀ (s : GoString) (j : Nat), stringsIndex s r = some j → j + r.length ≤ s.length := by
  intro s
  induction s with
  | nil =>
    intro j h
    unfold stringsIndex at h
    by_cases hp : r.isPrefixOf [] = true
    · rw [if_pos hp] at h
      cases h
      have := (List.isPrefixOf_iff_prefix.mp hp).length_le
      omega
    · rw [if_neg hp] at h
      cases h
  | cons x rest ih =>
    intro j h
    unfold stringsIndex at h
    by_cases hp : r.isPrefixOf (x :: rest) = true
    · rw [if_pos hp] at h
      cases h
      have := (List.isPrefixOf_iff_prefix.mp hp).length_le
      omega
    · rw [if_neg hp] at h
      cases hi : stringsIndex rest r with
      | none =>
        simp only [hi] at h
        cases h
      | some i =>
        simp only [hi, Option.some.injEq] at h
        have := ih i hi
        rw [List.length_cons]
        omega

theorem stringsSplit_second_iff (a v : GoString)
    (h : stringsIndex (a ++ (orderSep ++ v)) orderSep = some a.length) :
    (stringsSplit (a ++ (orderSep ++ v)) orderSep)[1]? = some v
      ↔ stringsIndex v orderSep = none := by
  have hd : (a ++ (orderSep ++ v)).drop (a.length + orderSep.length) = v := by
    rw [← List.append_assoc, ← List.length_append]
    exact List.drop_left' rfl
  rw [stringsSplit_second_between _ _ h, hd]
  cases hi : stringsIndex v orderSep with
  | none => simp
  | some j =>
    have hb := stringsIndex_some_bound orderSep v j hi
    have h27 : orderSep.length = 27 := by decide
    simp only [Option.some.injEq, reduceCtorEq, iff_false]
    intro he
    have hl := congrArg List.length he
    rw [List.length_take] at hl
    omega

/-! ## The separator token: the claim -/

/-- C21: let no field name and no formatted field value of a field set hold the
byte `{`. Then every sort key `order ++ name ++ orderSep ++ value` holds the
separator exactly once: `strings.Split(key, orderSep)` is the pair of
`order ++ name` and the formatted value, and its element 1 is the whole
formatted value. `generateCommon` returns the concatenation of the formatted
values of the entries taken in ascending bytewise order of their sort keys, and
its length is the sum of the fields' `Length`s. In general element 1 of the
split is the text between the first and the second occurrence of the
separator (up to the end when there is no second one). So when the first
occurrence is the separator that `generateCommon` wrote, element 1 is the whole
formatted value if and only if the value holds no separator; and a separator in
the name loses the value too: name `orderSep` with value `AB` gives the empty
string. -/
theorem generateCommon_separator_once (f : Field)
    (hname : ∀ e ∈ f, (123 : UInt8) ∉ e.1)
    (hval : ∀ e ∈ f, generateValue e.2 ≠ none ∧ (123 : UInt8) ∉ valueOf e) :
    (∀ e ∈ f, stringsSplit (keyOf e) orderSep = [formatInt e.2.Order ++ e.1, valueOf e]) ∧
      (∀ e ∈ f, (stringsSplit (keyOf e) orderSep)[1]? = generateValue e.2) ∧
      (List.insertionSort keyLe f).Perm f ∧
      (List.insertionSort keyLe f).Pairwise keyLe ∧
      generateCommon (some f)
        = some (((List.insertionSort keyLe f).map valueOf).flatten) ∧
      (∃ r, generateCommon (some f) = some r ∧
        len r = (f.map (fun e => e.2.Length)).sum) ∧
      (∀ key i, stringsIndex key orderSep = some i →
        (stringsSplit key orderSep)[1]?
          = some
            (match stringsIndex (key.drop (i + orderSep.length)) orderSep with
            | none => key.drop (i + orderSep.length)
            | some j => (key.drop (i + orderSep.length)).take j)) ∧
      (∀ a v, stringsIndex (a ++ (orderSep ++ v)) orderSep = some a.length →
        ((stringsSplit (a ++ (orderSep ++ v)) orderSep)[1]? = some v
          ↔ stringsIndex v orderSep = none)) ∧
      ((stringsSplit
          (keyOf (orderSep, Attribute.mk 1 (ascii "rps") 2 (ascii "AB") [] [] ([], [])))
          orderSep)[1]? = some [] ∧
        generateValue (Attribute.mk 1 (ascii "rps") 2 (ascii "AB") [] [] ([], []))
          = some (ascii "AB")) := by
  have hperm : (List.insertionSort keyLe f).Perm f := List.perm_insertionSort keyLe f
  have hsplit : ∀ e ∈ f,
      stringsSplit (keyOf e) orderSep = [formatInt e.2.Order ++ e.1, valueOf e] :=
    fun e he => stringsSplit_keyOf e (hname e he) (hval e he).2
  have hsorted : (List.insertionSort keyLe f).Pairwise keyLe := by
    haveI : IsTotal (GoString × Attribute) keyLe := ⟨fun x y => strLe_total _ _⟩
    haveI : IsTrans (GoString × Attribute) keyLe := ⟨fun x y z => strLe_trans _ _ _⟩
    exact List.sorted_insertionSort keyLe f
  have hcommon : generateCommon (some f)
      = some (((List.insertionSort keyLe f).map valueOf).flatten) := by
    rw [generateCommon_some f (fun e he => (hval e he).1), sortStrings_map_keyOf,
      joinOrders_values (List.insertionSort keyLe f)
        (fun e he => ⟨hname e (hperm.mem_iff.mp he), (hval e (hperm.mem_iff.mp he)).2⟩)]
    rfl
  refine ⟨hsplit, ?_, hperm, hsorted, hcommon, ?_, stringsSplit_second_between,
    stringsSplit_second_iff, by decide⟩
  · intro e he
    rw [hsplit e he]
    obtain ⟨v, hv⟩ := Option.ne_none_iff_exists'.mp (hval e he).1
    unfold valueOf
    rw [hv]
    rfl
  · refine ⟨_, hcommon, ?_⟩
    rw [len_flatten_values (List.insertionSort keyLe f)
      (fun e he => (hval e (hperm.mem_iff.mp he)).1)]
    exact (hperm.map (fun e => e.2.Length)).sum_eq

theorem generateCommon_separator_once_witness :
    generateCommon (some
        [(ascii "third", Attribute.mk 3 (ascii "lps") 5 (ascii "Third") [] [] ([], [])),
          (ascii "first", Attribute.mk 1 (ascii "lps") 5 (ascii "First") [] [] ([], [])),
          (ascii "second", Attribute.mk 2 (ascii "lps") 6 (ascii "Second") [] [] ([], []))])
      = some (ascii "FirstSecondThird") :=
  Eq.trans
    (generateCommon_separator_once
      [(ascii "third", Attribute.mk 3 (ascii "lps") 5 (ascii "Third") [] [] ([], [])),
        (ascii "first", Attribute.mk 1 (ascii "lps") 5 (ascii "First") [] [] ([], [])),
        (ascii "second", Attribute.mk 2 (ascii "lps") 6 (ascii "Second") [] [] ([], []))]
      (by decide) (by decide)).2.2.2.2.1
    (by decide)

end Cmtxgo
